import Mathlib

/-!
Verification of the provider registry (`Providers` class and its helper
functions) of this repository.  JavaScript strings are modelled as `List Char`,
byte buffers as `List Nat`, the datastore as an association list kept in
insertion order (`put` overwrites in place, `query` filters by string prefix),
JavaScript `Map`s as association lists with in-place overwrite, and the LRU
cache as a bounded most-recently-used-first association list.  Timestamps are
natural numbers (milliseconds); `Date.now()` readings below `2 ^ 53` keep all
JavaScript number arithmetic exact, which is where the varint codec is used.
-/

abbrev Str := List Char

abbrev Bytes := List Nat

/-- Model of JavaScript `s.split('/')`: splits a string on every `'/'`,
keeping empty segments, and yields `[""]` on the empty string. -/
def splitSlash : Str → List Str
  | [] => [[]]
  | c :: rest =>
    if c = '/' then [] :: splitSlash rest
    else (c :: (splitSlash rest).headI) :: (splitSlash rest).tail

/-- A string with no `'/'` character, such as the canonical text of a CID
(base32) or of a peer id (base58btc). -/
def NoSlash (s : Str) : Prop := '/' ∉ s

instance (s : Str) : Decidable (NoSlash s) :=
  inferInstanceAs (Decidable ('/' ∉ s))

/-! ## The varint codec

Model of the `varint` npm package used by `writeProviderEntry` and `readTime`:
`encode` emits the low seven bits per byte with the continuation bit `0x80`,
`decode` accumulates seven bits per byte and throws (`none`) on a truncated
buffer or when the shift passes 49 (the package's overflow guard).  A fuel
argument (the number itself) makes the encoder structurally recursive. -/

def varintEncodeAux : Nat → Nat → Bytes
  | 0, n => [n % 128]
  | fuel + 1, n => if n < 128 then [n] else (n % 128 + 128) :: varintEncodeAux fuel (n / 128)

def varintEncode (n : Nat) : Bytes := varintEncodeAux n n

def varintDecodeAux : Bytes → Nat → Nat → Option Nat
  | [], _, _ => none
  | b :: rest, shift, acc =>
    if shift > 49 then none
    else
      if b ≥ 128 then varintDecodeAux rest (shift + 7) (acc + b % 128 * 2 ^ shift)
      else some (acc + b % 128 * 2 ^ shift)

def varintDecode (buf : Bytes) : Option Nat := varintDecodeAux buf 0 0

/-! ## Key builder and parser -/

/-- Modelled from the spec: the constant `PROVIDER_KEY_PREFIX` lives in
`constants.js`, which is not under `src/`.  The spec's key layout demands that
a built record key split on `'/'` into exactly five parts with the CID text at
index 3 and the peer text at index 4 (sections 4.2 and 6), matching the
in-source `parseProviderKey`; hence the constant contributes two path
segments.  The shipped constant is `'/dht/provider'`. -/
def providerKeyRoot : Str := "/dht/provider".toList

/-- Model of `makeProviderKey`: `` `${PROVIDER_KEY_PREFIX}/${cidStr}` `` where
`cidStr` is the canonical text of the CID (base32 of its multihash). CIDs are
carried directly as their canonical text. -/
def makeProviderKey (cid : Str) : Str := providerKeyRoot ++ '/' :: cid

/-- Model of the datastore key built by `writeProviderEntry`:
`makeProviderKey(cid) + '/' + peer.toString()`.  For nonempty slash-free
components the `Key` constructor's normalisation is the identity, so the key
is carried as this raw string. -/
def providerRecordKey (cid peer : Str) : Str := makeProviderKey cid ++ '/' :: peer

/-- Model of `parseProviderKey`: split on `'/'`, require exactly five parts,
return parts 3 and 4 as `(cid, peerId)`; `none` models the thrown
`incorrectly formatted provider entry key` error. -/
def parseProviderKey (key : Str) : Option (Str × Str) :=
  match splitSlash key with
  | [_, _, _, cid, peerId] => some (cid, peerId)
  | _ => none

/-! ## Data model: peer maps, datastore, LRU cache

`PeerMap` models the JavaScript `Map<string, Date>` of `loadProviders` (peer
text to timestamp, insertion order, overwrite keeps the position).  The
datastore is an association list in insertion order whose `put` overwrites in
place and whose `query` filters by string prefix.  The LRU cache (the hashlru
dependency is not under `src/`) is modelled from the spec, section 4.3: a
bounded cache keyed by `makeProviderKey(cid)`, most recently used first, with
least-recently-used entries dropped when `set` overflows the capacity. -/

abbrev PeerMap := List (Str × Nat)

def pmLookup : PeerMap → Str → Option Nat
  | [], _ => none
  | (k, v) :: rest, p => if k = p then some v else pmLookup rest p

def pmSet : PeerMap → Str → Nat → PeerMap
  | [], p, t => [(p, t)]
  | (k, v) :: rest, p, t => if k = p then (p, t) :: rest else (k, v) :: pmSet rest p t

def pmDelete : PeerMap → Str → PeerMap
  | [], _ => []
  | (k, v) :: rest, p => if k = p then pmDelete rest p else (k, v) :: pmDelete rest p

abbrev Datastore := List (Str × Bytes)

def dsPut : Datastore → Str → Bytes → Datastore
  | [], k, v => [(k, v)]
  | (k0, v0) :: rest, k, v => if k0 = k then (k, v) :: rest else (k0, v0) :: dsPut rest k v

def dsQuery (store : Datastore) (pre : Str) : List (Str × Bytes) :=
  store.filter (fun e => pre.isPrefixOf e.1)

structure LruCache where
  cap : Nat
  entries : List (Str × PeerMap)
deriving DecidableEq

def emptyLru (cap : Nat) : LruCache := ⟨cap, []⟩

def lruFind (c : LruCache) (k : Str) : Option PeerMap :=
  (c.entries.find? (fun e => e.1 == k)).map (fun e => e.2)

def lruGet (c : LruCache) (k : Str) : Option PeerMap × LruCache :=
  match c.entries.find? (fun e => e.1 == k) with
  | none => (none, c)
  | some e => (some e.2, ⟨c.cap, e :: c.entries.filter (fun e2 => e2.1 != k)⟩)

def lruSet (c : LruCache) (k : Str) (m : PeerMap) : LruCache :=
  ⟨c.cap, ((k, m) :: c.entries.filter (fun e2 => e2.1 != k)).take c.cap⟩

def lruRemove (c : LruCache) (k : Str) : LruCache :=
  ⟨c.cap, c.entries.filter (fun e2 => e2.1 != k)⟩

/-! ## The Providers operations -/

/-- Error kinds of the spec, section 7.  `malformedKey` models the
`incorrectly formatted provider entry key` error thrown by `parseProviderKey`,
`malformedRecord` the `RangeError` thrown by `varint.decode` in `readTime`,
and `backendFailure` any datastore I/O failure. -/
inductive ProvError where
  | malformedKey
  | malformedRecord
  | backendFailure
deriving DecidableEq

structure ProvidersState where
  datastore : Datastore
  cache : LruCache
deriving DecidableEq

/-- Model of the loop body of `loadProviders`: for each scanned entry, parse
the key and decode the timestamp — there is no try/catch here, so the first
failure aborts the whole load — and `Map.set` the peer text. -/
def loadEntriesAcc : List (Str × Bytes) → PeerMap → Except ProvError PeerMap
  | [], acc => .ok acc
  | (k, v) :: rest, acc =>
    match parseProviderKey k with
    | none => .error .malformedKey
    | some kp =>
      match varintDecode v with
      | none => .error .malformedRecord
      | some t => loadEntriesAcc rest (pmSet acc kp.2 t)

/-- Model of `loadProviders`: prefix scan on `makeProviderKey(cid)` folded
into a fresh peer map. -/
def loadProviders (store : Datastore) (cid : Str) : Except ProvError PeerMap :=
  loadEntriesAcc (dsQuery store (makeProviderKey cid)) []

/-- Model of `Providers._getProvidersMap`: read-through cache (the hashlru
`get` touches recency on a hit; on a miss `loadProviders` runs and the result
is cached). -/
def getProvidersMap (s : ProvidersState) (cid : Str) :
    Except ProvError (PeerMap × ProvidersState) :=
  match lruGet s.cache (makeProviderKey cid) with
  | (some provs, cache1) => .ok (provs, ⟨s.datastore, cache1⟩)
  | (none, _) =>
    match loadProviders s.datastore cid with
    | .error e => .error e
    | .ok provs => .ok (provs, ⟨s.datastore, lruSet s.cache (makeProviderKey cid) provs⟩)

/-- Model of `Providers.addProvider` (the whole unit runs under the
concurrency-1 `syncQueue`, so it is one atomic step): load the peer map,
set `peer ↦ now`, refresh the cache entry, then write the single record
through `writeProviderEntry`. -/
def addProvider (s : ProvidersState) (cid peer : Str) (now : Nat) :
    Except ProvError ProvidersState :=
  match getProvidersMap s cid with
  | .error e => .error e
  | .ok (provs, s1) =>
    .ok ⟨dsPut s1.datastore (providerRecordKey cid peer) (varintEncode now),
      lruSet s1.cache (makeProviderKey cid) (pmSet provs peer now)⟩

/-- Model of `Providers.addProvider` when the final `store.put` of
`writeProviderEntry` raises a `BackendFailure`: the error propagates to the
caller, but the cache entry has already been updated while the datastore has
not (a failed put writes nothing).  The `.ok` payload is the state the
failing call leaves behind. -/
def addProviderPutFails (s : ProvidersState) (cid peer : Str) (now : Nat) :
    Except ProvError ProvidersState :=
  match getProvidersMap s cid with
  | .error e => .error e
  | .ok (provs, s1) =>
    .ok ⟨s1.datastore, lruSet s1.cache (makeProviderKey cid) (pmSet provs peer now)⟩

/-- Model of `Providers.getProviders`: the keys of the peer map, in map order
(`peerIdFromString` is the identity on the canonical peer text). -/
def getProviders (s : ProvidersState) (cid : Str) :
    Except ProvError (List Str × ProvidersState) :=
  match getProvidersMap s cid with
  | .error e => .error e
  | .ok (provs, s1) => .ok (provs.map (fun e => e.1), s1)

/-! ## The sweep (`Providers._cleanup`) -/

/-- Verdict of one loop iteration of `_cleanup` on a scanned entry: `some
(cid, peerId)` when the key parses, the value decodes and `now − time >
provideValidity` (JavaScript subtraction can be negative and then never
exceeds the validity, matching truncated subtraction on `Nat`); `none` when
the entry is not expired or the `try` block threw, which is logged and
skipped. -/
def entrySweepVerdict (validity now : Nat) (e : Str × Bytes) : Option (Str × Str) :=
  match parseProviderKey e.1 with
  | none => none
  | some kp =>
    match varintDecode e.2 with
    | none => none
    | some time => if now - time > validity then some kp else none

/-- The expired entries found by the sweep's prefix scan over
`PROVIDER_KEY_PREFIX`, as `(key, cid, peerId)` in scan order. -/
def sweepScan (validity now : Nat) (store : Datastore) : List (Str × Str × Str) :=
  (dsQuery store providerKeyRoot).filterMap (fun e =>
    (entrySweepVerdict validity now e).map (fun kp => (e.1, kp.1, kp.2)))

/-- Model of `deleted.get(cid) ?? new Set(); peers.add(peerId);
deleted.set(cid, peers)`: insertion-ordered map of cid to insertion-ordered
duplicate-free peer list. -/
def addDeleted : List (Str × List Str) → Str → Str → List (Str × List Str)
  | [], cid, p => [(cid, [p])]
  | (c, ps) :: rest, cid, p =>
    if c = cid then (c, if p ∈ ps then ps else ps ++ [p]) :: rest
    else (c, ps) :: addDeleted rest cid p

def groupDeleted (l : List (Str × Str × Str)) : List (Str × List Str) :=
  l.foldl (fun m e => addDeleted m e.2.1 e.2.2) []

/-- Model of the cache-reconciliation loop body of `_cleanup` for one `(cid,
peers)` group: on a cache hit delete each expired peer from the map, then
remove the entry if it became empty, else re-set it. -/
def reconcileOne (cache : LruCache) (cid : Str) (peers : List Str) : LruCache :=
  match lruGet cache (makeProviderKey cid) with
  | (none, cache1) => cache1
  | (some provs, cache1) =>
    let provs1 := peers.foldl pmDelete provs
    if provs1.length = 0 then lruRemove cache1 (makeProviderKey cid)
    else lruSet cache1 (makeProviderKey cid) provs1

/-- Model of one completed `Providers._cleanup` run: scan, stage a batch
delete for every expired entry, commit the batch only when something was
staged, then reconcile the cache.  `Date.now()` is modelled as the single
reading `now`, so every comparison of this sweep sees the same clock. -/
def cleanup (validity : Nat) (s : ProvidersState) (now : Nat) : ProvidersState :=
  let expired := sweepScan validity now s.datastore
  let keys := expired.map (fun e => e.1)
  let store1 :=
    if expired.isEmpty then s.datastore
    else s.datastore.filter (fun e => ! keys.contains e.1)
  ⟨store1, (groupDeleted expired).foldl (fun c g => reconcileOne c g.1 g.2) s.cache⟩

/-! ## Operation sequences -/

/-- One serialized unit of work admitted by the `syncQueue` (concurrency 1):
`addProvider`, `getProviders`, or a sweep at clock reading `now`. -/
inductive ProvOp where
  | add (cid peer : Str) (now : Nat)
  | get (cid : Str)
  | sweep (now : Nat)

/-- The state after one admitted unit completes.  A unit that throws (a
malformed scan entry surfacing from `loadProviders`) leaves the state
unchanged: both mutating writes happen after the load in the source. -/
def applyOp (validity : Nat) (s : ProvidersState) : ProvOp → ProvidersState
  | .add cid peer now =>
    match addProvider s cid peer now with
    | .ok s1 => s1
    | .error _ => s
  | .get cid =>
    match getProviders s cid with
    | .ok r => r.2
    | .error _ => s
  | .sweep now => cleanup validity s now

/-- A freshly constructed `Providers`: empty cache of capacity `cap` over a
fresh datastore. -/
def initState (cap : Nat) : ProvidersState := ⟨[], emptyLru cap⟩

def runOps (validity cap : Nat) (ops : List ProvOp) : ProvidersState :=
  ops.foldl (applyOp validity) (initState cap)

/-! ## Observation helpers -/

def providersListOf (s : ProvidersState) (cid : Str) : Option (List Str) :=
  match getProviders s cid with
  | .ok r => some r.1
  | .error _ => none

def providersHas (s : ProvidersState) (cid p : Str) : Bool :=
  match getProviders s cid with
  | .ok r => r.1.contains p
  | .error _ => false

def errOf {α : Type} : Except ProvError α → Option ProvError
  | .ok _ => none
  | .error e => some e

instance {ε α : Type} [DecidableEq ε] [DecidableEq α] : DecidableEq (Except ε α) :=
  fun x y =>
  match x, y with
  | .ok a, .ok b =>
    decidable_of_iff (a = b)
      (by constructor
          · intro h; rw [h]
          · intro h; injection h)
  | .ok _, .error _ => .isFalse (fun h => Except.noConfusion h)
  | .error _, .ok _ => .isFalse (fun h => Except.noConfusion h)
  | .error a, .error b =>
    decidable_of_iff (a = b)
      (by constructor
          · intro h; rw [h]
          · intro h; injection h)

/-- The peer text a scanned row parses to (index 4 of the split key). -/
def rowPeer (e : Str × Bytes) : Str := ((parseProviderKey e.1).getD ([], [])).2

/-- The timestamp a scanned row decodes to. -/
def rowTime (e : Str × Bytes) : Nat := (varintDecode e.2).getD 0

def rowView (e : Str × Bytes) : Str × Nat := (rowPeer e, rowTime e)

/-- A well-formed backend row of the given CID: its key was built by
`writeProviderEntry` for some slash-free peer and its value is the varint of a
JavaScript-safe timestamp. -/
def GoodRow (cid : Str) (e : Str × Bytes) : Prop :=
  ∃ q t, NoSlash q ∧ t < 2 ^ 53 ∧ e.1 = providerRecordKey cid q ∧ e.2 = varintEncode t

/-- All backend rows matching the CID's prefix scan are well-formed records
of that CID. -/
def RowsOK (store : Datastore) (cid : Str) : Prop :=
  ∀ e ∈ store, (makeProviderKey cid).isPrefixOf e.1 = true → GoodRow cid e

/-! ## Grouping and cache-reconciliation lemmas -/

/-- The cached timestamp recorded for `peer` under `cid`, when both the cache
entry and the peer are present. -/
def cachePeerTime (cache : LruCache) (cid peer : Str) : Option Nat :=
  match lruFind cache (makeProviderKey cid) with
  | none => none
  | some m => pmLookup m peer

/-- Invariant tying the `deleted` map under construction to the `(cid, peer)`
pairs already processed. -/
def GroupsGood (acc : List (Str × List Str)) (pairs : List (Str × Str)) : Prop :=
  (acc.map Prod.fst).Nodup ∧
  (∀ g ∈ acc, ∀ p, p ∈ g.2 ↔ (g.1, p) ∈ pairs) ∧
  (∀ c p, (c, p) ∈ pairs → c ∈ acc.map Prod.fst)

/-! ## Operation traces: well-formedness and the coherence invariant

Canonical CID and peer texts are nonempty and slash-free, and two distinct
canonical CID texts are never string-prefixes of one another (the canonical
base32 forms of equal-type multihashes have equal length); `CidsOK` captures
exactly this. -/

def CidOK (c : Str) : Prop := NoSlash c ∧ c ≠ []

instance (c : Str) : Decidable (CidOK c) :=
  inferInstanceAs (Decidable (_ ∧ _))

def Compat (c c2 : Str) : Prop :=
  c = c2 ∨ (c.isPrefixOf c2 = false ∧ c2.isPrefixOf c = false)

instance (c c2 : Str) : Decidable (Compat c c2) :=
  inferInstanceAs (Decidable (_ ∨ _))

def CidsOK (C : List Str) : Prop :=
  (∀ c ∈ C, CidOK c) ∧ ∀ c ∈ C, ∀ c2 ∈ C, Compat c c2

instance (C : List Str) : Decidable (CidsOK C) :=
  inferInstanceAs (Decidable (_ ∧ _))

def ProvOp.cids : ProvOp → List Str
  | .add cid _ _ => [cid]
  | .get cid => [cid]
  | .sweep _ => []

def ProvOp.Good : ProvOp → Prop
  | .add cid peer now => CidOK cid ∧ NoSlash peer ∧ peer ≠ [] ∧ now < 2 ^ 53
  | .get cid => CidOK cid
  | .sweep _ => True

instance : (op : ProvOp) → Decidable op.Good
  | .add _ _ _ => inferInstanceAs (Decidable (_ ∧ _ ∧ _ ∧ _))
  | .get _ => inferInstanceAs (Decidable (CidOK _))
  | .sweep _ => inferInstanceAs (Decidable True)

def opsCids (ops : List ProvOp) : List Str := (ops.map ProvOp.cids).join

/-- A well-formed sequence of admitted operations: every operand is a
canonical text and the CID texts used are pairwise compatible. -/
def GoodTrace (ops : List ProvOp) : Prop :=
  (∀ op ∈ ops, op.Good) ∧ CidsOK (opsCids ops)

instance (ops : List ProvOp) : Decidable (GoodTrace ops) :=
  inferInstanceAs (Decidable (_ ∧ _))

/-- The state invariant along a trace over CID texts from `C`: backend keys
are exactly the record keys written by `writeProviderEntry`, values are
varints of safe timestamps, keys are unique, and every cache entry equals the
backend rows of its CID as read by `loadProviders`. -/
structure TraceInv (C : List Str) (s : ProvidersState) : Prop where
  nodup : (s.datastore.map Prod.fst).Nodup
  store : ∀ e ∈ s.datastore, ∃ c q t, c ∈ C ∧ NoSlash q ∧ q ≠ [] ∧ t < 2 ^ 53 ∧
    e.1 = providerRecordKey c q ∧ e.2 = varintEncode t
  cache : ∀ e ∈ s.cache.entries, ∃ c, c ∈ C ∧ e.1 = makeProviderKey c ∧
    loadProviders s.datastore c = .ok e.2

/-- Every peer map resident in the cache has duplicate-free keys (each peer
text appears at most once).  `loadProviders` produces such maps because it
materialises the scan through `Map.set`, and every cache write stores such a
map. -/
def CacheMapsWF (c : LruCache) : Prop :=
  ∀ e ∈ c.entries, ((e.2 : PeerMap).map Prod.fst).Nodup

/-! ## Theorems -/

theorem splitSlash_ne_nil (s : Str) : splitSlash s ≠ [] := by
  cases s with
  | nil => simp [splitSlash]
  | cons c rest =>
    by_cases h : c = '/' <;> simp [splitSlash, h]

theorem splitSlash_cons_slash (rest : Str) :
    splitSlash ('/' :: rest) = [] :: splitSlash rest := by
  simp [splitSlash]

theorem splitSlash_cons_of_ne {c : Char} (h : c ≠ '/') (rest : Str) :
    splitSlash (c :: rest) =
      (c :: (splitSlash rest).headI) :: (splitSlash rest).tail := by
  simp [splitSlash, h]

theorem headI_cons_tail_of_ne_nil {l : List Str} (h : l ≠ []) :
    l.headI :: l.tail = l := by
  cases l with
  | nil => exact absurd rfl h
  | cons a t => rfl

theorem splitSlash_append_of_noSlash {xs : Str} (h : NoSlash xs) (ys : Str) :
    splitSlash (xs ++ ys) =
      (xs ++ (splitSlash ys).headI) :: (splitSlash ys).tail := by
  induction xs with
  | nil =>
    simpa using (headI_cons_tail_of_ne_nil (splitSlash_ne_nil ys)).symm
  | cons c rest ih =>
    have hc : c ≠ '/' := by
      intro hc; exact h (by simp [hc])
    have hrest : NoSlash rest := by
      intro hm; exact h (List.mem_cons_of_mem _ hm)
    have := ih hrest
    rw [List.cons_append, splitSlash_cons_of_ne hc, this]
    simp

theorem splitSlash_of_noSlash {xs : Str} (h : NoSlash xs) :
    splitSlash xs = [xs] := by
  have := splitSlash_append_of_noSlash h []
  simpa [splitSlash] using this

theorem splitSlash_noSlash_slash {xs : Str} (h : NoSlash xs) (ys : Str) :
    splitSlash (xs ++ '/' :: ys) = xs :: splitSlash ys := by
  rw [splitSlash_append_of_noSlash h, splitSlash_cons_slash]
  simp

theorem varintEncodeAux_fuel :
    ∀ n f₁ f₂, n ≤ f₁ → n ≤ f₂ → varintEncodeAux f₁ n = varintEncodeAux f₂ n := by
  intro n
  induction n using Nat.strong_induction_on with
  | _ n ih =>
    intro f₁ f₂ h₁ h₂
    match f₁, f₂ with
    | 0, 0 => rfl
    | 0, f₂ + 1 =>
      interval_cases n
      simp [varintEncodeAux]
    | f₁ + 1, 0 =>
      interval_cases n
      simp [varintEncodeAux]
    | f₁ + 1, f₂ + 1 =>
      by_cases hn : n < 128
      · simp [varintEncodeAux, hn]
      · have hdiv : n / 128 < n := Nat.div_lt_self (by omega) (by omega)
        simp only [varintEncodeAux, hn, if_false]
        rw [ih (n / 128) hdiv f₁ f₂ (by omega) (by omega)]

theorem varintEncode_eq (n : Nat) :
    varintEncode n = if n < 128 then [n] else (n % 128 + 128) :: varintEncode (n / 128) := by
  by_cases hn : n < 128
  · cases n with
    | zero => simp [varintEncode, varintEncodeAux]
    | succ m => simp [varintEncode, varintEncodeAux, hn]
  · have hdiv : n / 128 < n := Nat.div_lt_self (by omega) (by omega)
    cases n with
    | zero => omega
    | succ m =>
      simp only [varintEncode, varintEncodeAux, hn, if_false]
      rw [varintEncodeAux_fuel (Nat.succ m / 128) m (Nat.succ m / 128) (by omega) (le_refl _)]

theorem varintDecodeAux_encode :
    ∀ n k acc, n < 2 ^ (53 - 7 * k) → 7 * k ≤ 49 →
      varintDecodeAux (varintEncode n) (7 * k) acc = some (acc + n * 2 ^ (7 * k)) := by
  intro n
  induction n using Nat.strong_induction_on with
  | _ n ih =>
    intro k acc hlt hk
    rw [varintEncode_eq]
    by_cases hn : n < 128
    · simp only [hn, if_true, varintDecodeAux]
      have : ¬ (7 * k > 49) := by omega
      simp [this, Nat.mod_eq_of_lt hn, Nat.not_le.mpr hn]
    · have hk42 : 7 * k ≤ 42 := by
        have h7 : (2 : Nat) ^ 7 ≤ 2 ^ (53 - 7 * k) := le_trans (by omega) (le_of_lt hlt)
        have := (Nat.pow_le_pow_iff_right (le_refl 2)).mp h7
        omega
      have hdiv : n / 128 < n := Nat.div_lt_self (by omega) (by omega)
      have hdivlt : n / 128 < 2 ^ (53 - 7 * (k + 1)) := by
        rw [Nat.div_lt_iff_lt_mul (by norm_num : (0:Nat) < 128)]
        calc n < 2 ^ (53 - 7 * k) := hlt
        _ = 2 ^ (53 - 7 * (k + 1)) * 128 := by
            rw [show (128 : Nat) = 2 ^ 7 by norm_num, ← pow_add]
            congr 1
            omega
      simp only [hn, if_false, varintDecodeAux]
      have hng : ¬ (7 * k > 49) := by omega
      have hb : n % 128 + 128 ≥ 128 := by omega
      simp only [hng, if_false, hb, if_true, if_pos hb]
      have hmod : (n % 128 + 128) % 128 = n % 128 := by omega
      rw [hmod]
      have h7k : 7 * k + 7 = 7 * (k + 1) := by ring
      rw [h7k, ih (n / 128) hdiv (k + 1) _ hdivlt (by omega)]
      congr 1
      have : n % 128 + n / 128 * 128 = n := Nat.mod_add_div' n 128
      calc acc + n % 128 * 2 ^ (7 * k) + n / 128 * 2 ^ (7 * (k + 1))
          = acc + (n % 128 + n / 128 * 128) * 2 ^ (7 * k) := by
            rw [show 7 * (k + 1) = 7 * k + 7 by ring, pow_add]
            ring
        _ = acc + n * 2 ^ (7 * k) := by rw [this]

theorem providerKeyRoot_eq :
    providerKeyRoot = '/' :: ("dht".toList ++ '/' :: "provider".toList) := by
  decide

theorem splitSlash_root (s : Str) :
    splitSlash (providerKeyRoot ++ '/' :: s) =
      [] :: "dht".toList :: "provider".toList :: splitSlash s := by
  rw [providerKeyRoot_eq]
  simp only [List.cons_append, List.append_assoc]
  rw [splitSlash_cons_slash, splitSlash_noSlash_slash (by decide),
    splitSlash_noSlash_slash (by decide)]

theorem splitSlash_recordKey {cid peer : Str} (hc : NoSlash cid) (hp : NoSlash peer) :
    splitSlash (providerRecordKey cid peer) =
      [[], "dht".toList, "provider".toList, cid, peer] := by
  have : providerRecordKey cid peer = providerKeyRoot ++ '/' :: (cid ++ '/' :: peer) := by
    simp [providerRecordKey, makeProviderKey]
  rw [this, splitSlash_root, splitSlash_noSlash_slash hc, splitSlash_of_noSlash hp]

theorem parse_providerRecordKey {cid peer : Str} (hc : NoSlash cid) (hp : NoSlash peer) :
    parseProviderKey (providerRecordKey cid peer) = some (cid, peer) := by
  rw [parseProviderKey, splitSlash_recordKey hc hp]

/-! ## Association-list lemmas -/

theorem pmLookup_pmSet_self (m : PeerMap) (p : Str) (t : Nat) :
    pmLookup (pmSet m p t) p = some t := by
  induction m with
  | nil => simp [pmSet, pmLookup]
  | cons e rest ih =>
    by_cases h : e.1 = p <;> simp [pmSet, pmLookup, h, ih]

theorem pmLookup_pmSet_ne (m : PeerMap) {p q : Str} (t : Nat) (h : q ≠ p) :
    pmLookup (pmSet m p t) q = pmLookup m q := by
  have hpq : ¬ p = q := fun hh => h hh.symm
  induction m with
  | nil => simp [pmSet, pmLookup, hpq]
  | cons e rest ih =>
    obtain ⟨a, b⟩ := e
    by_cases ha : a = p
    · simp [pmSet, pmLookup, ha, hpq]
    · simp [pmSet, pmLookup, ha, ih]

theorem pmSet_eq_append_of_not_mem {m : PeerMap} {p : Str} (t : Nat)
    (h : p ∉ m.map Prod.fst) : pmSet m p t = m ++ [(p, t)] := by
  induction m with
  | nil => simp [pmSet]
  | cons e rest ih =>
    have h1 : e.1 ≠ p := by
      intro hh; exact h (by simp [hh])
    have h2 : p ∉ rest.map Prod.fst := by
      intro hh; exact h (by simp [hh])
    simp [pmSet, h1, ih h2]

theorem keys_pmSet (m : PeerMap) (p : Str) (t : Nat) :
    (pmSet m p t).map Prod.fst =
      if p ∈ m.map Prod.fst then m.map Prod.fst else m.map Prod.fst ++ [p] := by
  induction m with
  | nil => simp [pmSet]
  | cons e rest ih =>
    by_cases h : e.1 = p
    · simp [pmSet, h]
    · have : ¬ p = e.1 := fun hh => h hh.symm
      by_cases hm : p ∈ rest.map Prod.fst <;>
        simp [pmSet, h, ih, hm, this]

theorem mem_keys_pmSet (m : PeerMap) (p : Str) (t : Nat) :
    p ∈ (pmSet m p t).map Prod.fst := by
  rw [keys_pmSet]
  by_cases h : p ∈ m.map Prod.fst <;> simp [h]

theorem keys_pmSet_nodup {m : PeerMap} (p : Str) (t : Nat)
    (h : (m.map Prod.fst).Nodup) : ((pmSet m p t).map Prod.fst).Nodup := by
  rw [keys_pmSet]
  by_cases hm : p ∈ m.map Prod.fst
  · simpa [hm]
  · simp only [hm, if_false]
    exact List.Nodup.append h (List.nodup_singleton p) (by simpa using hm)

theorem pmDelete_eq_filter (m : PeerMap) (p : Str) :
    pmDelete m p = m.filter (fun e => e.1 != p) := by
  induction m with
  | nil => simp [pmDelete]
  | cons e rest ih =>
    by_cases h : e.1 = p <;> simp [pmDelete, h, ih, List.filter_cons]

theorem pmLookup_eq_none_of_not_mem {m : PeerMap} {p : Str}
    (h : p ∉ m.map Prod.fst) : pmLookup m p = none := by
  induction m with
  | nil => simp [pmLookup]
  | cons e rest ih =>
    have h1 : e.1 ≠ p := by
      intro hh; exact h (by simp [hh])
    have h2 : p ∉ rest.map Prod.fst := by
      intro hh; exact h (by simp [hh])
    simp [pmLookup, h1, ih h2]

theorem pmLookup_pmDelete_self (m : PeerMap) (p : Str) :
    pmLookup (pmDelete m p) p = none := by
  apply pmLookup_eq_none_of_not_mem
  rw [pmDelete_eq_filter]
  intro hmem
  obtain ⟨e, he, hfst⟩ := List.mem_map.mp hmem
  have := List.of_mem_filter he
  simp [hfst] at this

theorem foldl_pmDelete_eq_filter (ps : List Str) (m : PeerMap) :
    ps.foldl pmDelete m = m.filter (fun e => ! ps.contains e.1) := by
  induction ps generalizing m with
  | nil => simp
  | cons p rest ih =>
    rw [List.foldl_cons, ih, pmDelete_eq_filter, List.filter_filter]
    congr 1
    funext e
    by_cases h : e.1 = p <;> simp [h, List.contains_cons]

theorem pmLookup_foldl_pmDelete_of_mem {ps : List Str} {p : Str} (m : PeerMap)
    (h : p ∈ ps) : pmLookup (ps.foldl pmDelete m) p = none := by
  apply pmLookup_eq_none_of_not_mem
  rw [foldl_pmDelete_eq_filter]
  intro hmem
  obtain ⟨e, he, hfst⟩ := List.mem_map.mp hmem
  have := List.of_mem_filter he
  rw [hfst] at this
  simp at this
  exact this h

theorem mem_dsPut (store : Datastore) (k : Str) (v : Bytes) :
    ∀ e ∈ dsPut store k v, e = (k, v) ∨ e ∈ store := by
  induction store with
  | nil => simp [dsPut]
  | cons e0 rest ih =>
    intro e he
    by_cases h : e0.1 = k
    · simp only [dsPut, h, if_true, List.mem_cons] at he
      rcases he with he | he
      · exact Or.inl he
      · exact Or.inr (List.mem_cons_of_mem _ he)
    · simp only [dsPut, h, if_false, List.mem_cons] at he
      rcases he with he | he
      · exact Or.inr (by simp [he])
      · rcases ih e he with h1 | h1
        · exact Or.inl h1
        · exact Or.inr (List.mem_cons_of_mem _ h1)

theorem self_mem_dsPut (store : Datastore) (k : Str) (v : Bytes) :
    (k, v) ∈ dsPut store k v := by
  induction store with
  | nil => simp [dsPut]
  | cons e0 rest ih =>
    by_cases h : e0.1 = k <;> simp [dsPut, h, ih]

theorem keys_dsPut (store : Datastore) (k : Str) (v : Bytes) :
    (dsPut store k v).map Prod.fst =
      if k ∈ store.map Prod.fst then store.map Prod.fst
      else store.map Prod.fst ++ [k] := by
  induction store with
  | nil => simp [dsPut]
  | cons e rest ih =>
    by_cases h : e.1 = k
    · simp [dsPut, h]
    · have : ¬ k = e.1 := fun hh => h hh.symm
      by_cases hm : k ∈ rest.map Prod.fst <;>
        simp [dsPut, h, ih, hm, this]

theorem keys_dsPut_nodup {store : Datastore} (k : Str) (v : Bytes)
    (h : (store.map Prod.fst).Nodup) :
    ((dsPut store k v).map Prod.fst).Nodup := by
  rw [keys_dsPut]
  by_cases hm : k ∈ store.map Prod.fst
  · simpa [hm]
  · simp only [hm, if_false]
    exact List.Nodup.append h (List.nodup_singleton k) (by simpa using hm)

/-! ## Key and prefix lemmas -/

theorem makeProviderKey_inj {c c' : Str} (h : makeProviderKey c = makeProviderKey c') :
    c = c' := by
  have := List.append_cancel_left h
  simpa using this

theorem providerRecordKey_inj_peer {c p q : Str} (h : providerRecordKey c p = providerRecordKey c q) :
    p = q := by
  have := List.append_cancel_left h
  simpa using this

theorem root_pre_recordKey (c q : Str) :
    providerKeyRoot.isPrefixOf (providerRecordKey c q) = true := by
  rw [ List.isPrefixOf_iff_prefix]
  exact ⟨'/' :: c ++ '/' :: q, by simp [providerRecordKey, makeProviderKey]⟩

theorem mk_pre_recordKey (c q : Str) :
    (makeProviderKey c).isPrefixOf (providerRecordKey c q) = true := by
  rw [ List.isPrefixOf_iff_prefix]
  exact ⟨'/' :: q, by simp [providerRecordKey]⟩

theorem cid_eq_of_pre_record {cid c q : Str} (hcid : NoSlash cid)
    (hcompat : cid = c ∨ (cid.isPrefixOf c = false ∧ c.isPrefixOf cid = false))
    (hpre : (makeProviderKey cid).isPrefixOf (providerRecordKey c q) = true) :
    cid = c := by
  have hpre2 : makeProviderKey cid <+: providerRecordKey c q :=
    ( List.isPrefixOf_iff_prefix).mp hpre
  have hsplit : cid <+: c ++ '/' :: q := by
    have h1 : makeProviderKey cid = (providerKeyRoot ++ ['/']) ++ cid := by
      simp [makeProviderKey]
    have h2 : providerRecordKey c q = (providerKeyRoot ++ ['/']) ++ (c ++ '/' :: q) := by
      simp [providerRecordKey, makeProviderKey]
    rw [h1, h2] at hpre2
    exact (List.prefix_append_right_inj _).mp hpre2
  by_cases hlen : cid.length ≤ c.length
  · have hcc : cid <+: c :=
      List.prefix_of_prefix_length_le hsplit (List.prefix_append c ('/' :: q)) hlen
    rcases hcompat with h | h
    · exact h
    · exact absurd (( List.isPrefixOf_iff_prefix).mpr hcc) (by simp [h.1])
  · exfalso
    have htake := List.prefix_iff_eq_take.mp hsplit
    rw [List.take_append_eq_append_take, List.take_of_length_le (by omega)] at htake
    have hpos : cid.length - c.length = (cid.length - c.length - 1) + 1 := by omega
    rw [hpos, List.take_succ_cons] at htake
    exact hcid (by rw [htake]; simp)

theorem pre_record_false_of_ne {cid c q : Str} (hcid : NoSlash cid)
    (hcompat : cid = c ∨ (cid.isPrefixOf c = false ∧ c.isPrefixOf cid = false))
    (hne : cid ≠ c) :
    (makeProviderKey cid).isPrefixOf (providerRecordKey c q) = false := by
  cases hb : (makeProviderKey cid).isPrefixOf (providerRecordKey c q) with
  | false => rfl
  | true => exact absurd (cid_eq_of_pre_record hcid hcompat hb) hne

theorem dsQuery_dsPut_not_matching {pre k : Str} (store : Datastore) (v : Bytes)
    (h : pre.isPrefixOf k = false) :
    dsQuery (dsPut store k v) pre = dsQuery store pre := by
  induction store with
  | nil => simp [dsPut, dsQuery, h]
  | cons e rest ih =>
    by_cases he : e.1 = k
    · simp only [dsPut, he, if_true]
      simp [dsQuery, List.filter_cons, he, h]
    · simp only [dsPut, he, if_false]
      simp only [dsQuery, List.filter_cons] at ih ⊢
      rw [ih]

theorem dsQuery_filter (store : Datastore) (pre : Str) (f : Str × Bytes → Bool) :
    dsQuery (store.filter f) pre = (dsQuery store pre).filter f := by
  simp only [dsQuery, List.filter_filter]
  congr 1
  funext e
  exact Bool.and_comm _ _

theorem keys_filter_nodup {store : Datastore} (f : Str × Bytes → Bool)
    (h : (store.map Prod.fst).Nodup) :
    ((store.filter f).map Prod.fst).Nodup :=
  ((List.filter_sublist store).map Prod.fst).nodup h

/-! ## LRU cache lemmas -/

theorem find?_key_filter_ne {α : Type} (l : List (Str × α)) (k k' : Str) (h : k' ≠ k) :
    (l.filter (fun e => e.1 != k)).find? (fun e => e.1 == k') =
      l.find? (fun e => e.1 == k') := by
  have hkk : ¬ k = k' := fun hh => h hh.symm
  induction l with
  | nil => rfl
  | cons e rest ih =>
    by_cases hek : e.1 = k
    · have h1 : (e.1 != k) = false := by simp [hek]
      have h2 : (e.1 == k') = false := by simp [hek, hkk]
      simp only [List.filter_cons, h1, Bool.false_eq_true, if_false, List.find?_cons, h2, ih]
    · have h1 : (e.1 != k) = true := by simp [hek]
      by_cases hek' : e.1 = k'
      · have h2 : (e.1 == k') = true := by simp [hek']
        simp only [List.filter_cons, h1, if_true, List.find?_cons, h2]
      · have h2 : (e.1 == k') = false := by simp [hek']
        simp only [List.filter_cons, h1, if_true, List.find?_cons, h2, ih]

theorem find?_take_or {α : Type} (l : List (Str × α)) (n : Nat) (p : Str × α → Bool) :
    (l.take n).find? p = none ∨ (l.take n).find? p = l.find? p := by
  induction l generalizing n with
  | nil => simp
  | cons e rest ih =>
    cases n with
    | zero => simp
    | succ n =>
      by_cases hp : p e
      · right; simp [List.take_succ_cons, List.find?_cons, hp]
      · simp only [List.take_succ_cons, List.find?_cons, hp, Bool.false_eq_true, if_false]
        exact ih n

theorem lruGet_fst (c : LruCache) (k : Str) : (lruGet c k).1 = lruFind c k := by
  unfold lruGet lruFind
  cases h : c.entries.find? (fun e => e.1 == k) with
  | none => rfl
  | some e => rfl

theorem lruFind_touch (c : LruCache) (k k' : Str) :
    lruFind (lruGet c k).2 k' = lruFind c k' := by
  unfold lruGet
  cases h : c.entries.find? (fun e => e.1 == k) with
  | none => rfl
  | some e =>
    have he : e.1 = k := by
      have := List.find?_some h
      simpa using this
    by_cases hk : k' = k
    · subst hk
      simp only [lruFind, List.find?_cons, show (e.1 == k') = true by simp [he], h]
    · have hkk : ¬ k = k' := fun hh => hk hh.symm
      have hne : (e.1 == k') = false := by simp [he, hkk]
      simp only [lruFind, List.find?_cons, hne]
      rw [find?_key_filter_ne _ _ _ hk]

theorem lruFind_lruSet_self (c : LruCache) (k : Str) (m : PeerMap) (hcap : 1 ≤ c.cap) :
    lruFind (lruSet c k m) k = some m := by
  obtain ⟨n, hn⟩ : ∃ n, c.cap = n + 1 := ⟨c.cap - 1, by omega⟩
  simp [lruFind, lruSet, hn, List.take_succ_cons, List.find?_cons]

theorem lruFind_lruSet_ne (c : LruCache) (k : Str) (m : PeerMap) {k' : Str} (h : k' ≠ k) :
    lruFind (lruSet c k m) k' = none ∨ lruFind (lruSet c k m) k' = lruFind c k' := by
  unfold lruSet lruFind
  rcases find?_take_or ((k, m) :: c.entries.filter (fun e2 => e2.1 != k)) c.cap
      (fun e => e.1 == k') with hor | hor
  · left; simp [hor]
  · right
    rw [hor]
    have hkk : ¬ k = k' := fun hh => h hh.symm
    have h2 : ((k, m).1 == k') = false := by simp [hkk]
    simp only [List.find?_cons, h2]
    rw [find?_key_filter_ne _ _ _ h]

theorem lruFind_lruRemove_ne (c : LruCache) (k : Str) {k' : Str} (h : k' ≠ k) :
    lruFind (lruRemove c k) k' = lruFind c k' := by
  unfold lruRemove lruFind
  rw [find?_key_filter_ne _ _ _ h]

theorem mem_lruSet {c : LruCache} {k : Str} {m : PeerMap} {e : Str × PeerMap}
    (h : e ∈ (lruSet c k m).entries) : e = (k, m) ∨ (e ∈ c.entries ∧ e.1 ≠ k) := by
  unfold lruSet at h
  have h2 := List.mem_of_mem_take h
  rcases List.mem_cons.mp h2 with h3 | h3
  · exact Or.inl h3
  · have hf := List.of_mem_filter h3
    exact Or.inr ⟨List.mem_of_mem_filter h3, by simpa using hf⟩

theorem mem_lruTouch {c : LruCache} {k : Str} {e : Str × PeerMap}
    (h : e ∈ (lruGet c k).2.entries) : e ∈ c.entries := by
  unfold lruGet at h
  cases hf : c.entries.find? (fun e2 => e2.1 == k) with
  | none => rw [hf] at h; exact h
  | some e0 =>
    rw [hf] at h
    rcases List.mem_cons.mp h with h3 | h3
    · exact h3 ▸ List.mem_of_find?_eq_some hf
    · exact List.mem_of_mem_filter h3

theorem mem_lruRemove {c : LruCache} {k : Str} {e : Str × PeerMap}
    (h : e ∈ (lruRemove c k).entries) : e ∈ c.entries ∧ e.1 ≠ k := by
  unfold lruRemove at h
  have hf := List.of_mem_filter h
  exact ⟨List.mem_of_mem_filter h, by simpa using hf⟩

theorem cap_lruSet (c : LruCache) (k : Str) (m : PeerMap) : (lruSet c k m).cap = c.cap := rfl

theorem cap_lruTouch (c : LruCache) (k : Str) : (lruGet c k).2.cap = c.cap := by
  unfold lruGet
  cases h : c.entries.find? (fun e2 => e2.1 == k) with
  | none => rfl
  | some e => rfl

theorem cap_lruRemove (c : LruCache) (k : Str) : (lruRemove c k).cap = c.cap := rfl

theorem length_lruSet_le_cap (c : LruCache) (k : Str) (m : PeerMap) :
    (lruSet c k m).entries.length ≤ c.cap := by
  unfold lruSet
  exact List.length_take_le _ _

theorem length_lruTouch_le (c : LruCache) (k : Str) :
    (lruGet c k).2.entries.length ≤ c.entries.length := by
  unfold lruGet
  cases hf : c.entries.find? (fun e2 => e2.1 == k) with
  | none => simp
  | some e0 =>
    have hmem := List.mem_of_find?_eq_some hf
    have he0 : e0.1 = k := by
      have := List.find?_some hf
      simpa using this
    have : (c.entries.filter (fun e2 => e2.1 != k)).length < c.entries.length := by
      rw [List.length_filter_lt_length_iff_exists]
      exact ⟨e0, hmem, by simp [he0]⟩
    simpa using this

theorem length_lruRemove_le (c : LruCache) (k : Str) :
    (lruRemove c k).entries.length ≤ c.entries.length := by
  unfold lruRemove
  exact List.length_filter_le _ _

theorem nodupKeys_filter {α : Type} {l : List (Str × α)} (f : Str × α → Bool)
    (h : (l.map Prod.fst).Nodup) : ((l.filter f).map Prod.fst).Nodup :=
  ((List.filter_sublist l).map Prod.fst).nodup h

theorem nodupKeys_lruSet {c : LruCache} (k : Str) (m : PeerMap)
    (h : (c.entries.map Prod.fst).Nodup) :
    ((lruSet c k m).entries.map Prod.fst).Nodup := by
  unfold lruSet
  apply ((List.take_sublist _ _).map Prod.fst).nodup
  simp only [List.map_cons, List.nodup_cons]
  constructor
  · intro hmem
    obtain ⟨e, he, hfst⟩ := List.mem_map.mp hmem
    have := List.of_mem_filter he
    simp [hfst] at this
  · exact nodupKeys_filter _ h

theorem nodupKeys_lruTouch {c : LruCache} (k : Str)
    (h : (c.entries.map Prod.fst).Nodup) :
    ((lruGet c k).2.entries.map Prod.fst).Nodup := by
  unfold lruGet
  cases hf : c.entries.find? (fun e2 => e2.1 == k) with
  | none => exact h
  | some e0 =>
    have he0 : e0.1 = k := by
      have := List.find?_some hf
      simpa using this
    simp only [List.map_cons, List.nodup_cons]
    constructor
    · intro hmem
      obtain ⟨e, he, hfst⟩ := List.mem_map.mp hmem
      have := List.of_mem_filter he
      simp [hfst, he0] at this
    · exact nodupKeys_filter _ h

theorem nodupKeys_lruRemove {c : LruCache} (k : Str)
    (h : (c.entries.map Prod.fst).Nodup) :
    ((lruRemove c k).entries.map Prod.fst).Nodup :=
  nodupKeys_filter _ h

/-! ## Round-trip helper and loadProviders lemmas -/

theorem varintDecode_varintEncode {t : Nat} (h : t < 2 ^ 53) :
    varintDecode (varintEncode t) = some t := by
  have := varintDecodeAux_encode t 0 0 (by simpa using h) (by norm_num)
  simpa [varintDecode] using this

theorem GoodRow.parse_eq {cid : Str} {e : Str × Bytes} (hcid : NoSlash cid)
    (h : GoodRow cid e) : parseProviderKey e.1 = some (cid, rowPeer e) := by
  obtain ⟨q, t, hq, ht, hk, hv⟩ := h
  have hp := parse_providerRecordKey hcid hq
  rw [rowPeer, hk, hp]
  simp

theorem GoodRow.rowPeer_noSlash {cid : Str} {e : Str × Bytes} (hcid : NoSlash cid)
    (h : GoodRow cid e) : NoSlash (rowPeer e) := by
  obtain ⟨q, t, hq, ht, hk, hv⟩ := h
  have hp := parse_providerRecordKey hcid hq
  rw [rowPeer, hk, hp]
  simpa using hq

theorem GoodRow.key_eq {cid : Str} {e : Str × Bytes} (hcid : NoSlash cid)
    (h : GoodRow cid e) : e.1 = providerRecordKey cid (rowPeer e) := by
  obtain ⟨q, t, hq, ht, hk, hv⟩ := h
  have hp := parse_providerRecordKey hcid hq
  rw [rowPeer, hk, hp]
  simp

theorem GoodRow.decode_eq {cid : Str} {e : Str × Bytes}
    (h : GoodRow cid e) : varintDecode e.2 = some (rowTime e) := by
  obtain ⟨q, t, hq, ht, hk, hv⟩ := h
  rw [rowTime, hv, varintDecode_varintEncode ht]
  simp [varintDecode_varintEncode ht, hv]

theorem loadEntriesAcc_good {cid : Str} (hcid : NoSlash cid) :
    ∀ (l : List (Str × Bytes)) (acc : PeerMap),
      (∀ e ∈ l, GoodRow cid e) →
      (l.map rowPeer).Nodup →
      (∀ e ∈ l, rowPeer e ∉ acc.map Prod.fst) →
      loadEntriesAcc l acc = .ok (acc ++ l.map rowView) := by
  intro l
  induction l with
  | nil => intro acc _ _ _; simp [loadEntriesAcc]
  | cons e rest ih =>
    intro acc hrows hnd hacc
    have hrow : GoodRow cid e := hrows e (by simp)
    simp only [loadEntriesAcc, hrow.parse_eq hcid, hrow.decode_eq]
    rw [pmSet_eq_append_of_not_mem _ (hacc e (by simp))]
    have hnd2 : rowPeer e ∉ rest.map rowPeer ∧ (rest.map rowPeer).Nodup := by
      rw [List.map_cons, List.nodup_cons] at hnd
      exact hnd
    rw [ih (acc ++ [(rowPeer e, rowTime e)])
      (fun e2 he2 => hrows e2 (List.mem_cons_of_mem _ he2)) hnd2.2 ?hacc2]
    · simp [rowView]
    case hacc2 =>
      intro e2 he2
      simp only [List.map_append, List.mem_append]
      rintro (hmem | hmem)
      · exact hacc e2 (List.mem_cons_of_mem _ he2) hmem
      · have : rowPeer e2 = rowPeer e := by simpa using hmem
        exact hnd2.1 (this ▸ List.mem_map_of_mem rowPeer he2)

theorem rowPeers_nodup {cid : Str} (hcid : NoSlash cid) (l : List (Str × Bytes))
    (hrows : ∀ e ∈ l, GoodRow cid e) (hkeys : (l.map Prod.fst).Nodup) :
    (l.map rowPeer).Nodup := by
  have hmaps : l.map (fun e => providerRecordKey cid (rowPeer e)) = l.map Prod.fst :=
    List.map_congr_left (fun e he => ((hrows e he).key_eq hcid).symm)
  have : ((l.map rowPeer).map (providerRecordKey cid)).Nodup := by
    rw [List.map_map]
    exact hmaps ▸ hkeys
  exact this.of_map _

theorem RowsOK.tail {e : Str × Bytes} {rest : Datastore} {cid : Str}
    (h : RowsOK (e :: rest) cid) : RowsOK rest cid :=
  fun e2 he2 hm => h e2 (List.mem_cons_of_mem _ he2) hm

theorem loadProviders_eq_of_rows {store : Datastore} {cid : Str} (hcid : NoSlash cid)
    (hnd : (store.map Prod.fst).Nodup) (hrows : RowsOK store cid) :
    loadProviders store cid = .ok ((dsQuery store (makeProviderKey cid)).map rowView) := by
  have hq : ∀ e ∈ dsQuery store (makeProviderKey cid), GoodRow cid e := by
    intro e he
    exact hrows e (List.mem_of_mem_filter he) (by simpa using List.of_mem_filter he)
  have hknd : ((dsQuery store (makeProviderKey cid)).map Prod.fst).Nodup :=
    nodupKeys_filter _ hnd
  have := loadEntriesAcc_good hcid (dsQuery store (makeProviderKey cid)) []
    hq (rowPeers_nodup hcid _ hq hknd) (by simp)
  simpa [loadProviders] using this

theorem rowView_record {cid p : Str} {t : Nat} (hcid : NoSlash cid) (hp : NoSlash p)
    (ht : t < 2 ^ 53) :
    rowView (providerRecordKey cid p, varintEncode t) = (p, t) := by
  simp [rowView, rowPeer, rowTime, parse_providerRecordKey hcid hp,
    varintDecode_varintEncode ht]

theorem dsQuery_dsPut_view {cid p : Str} {t : Nat} (hcid : NoSlash cid) (hp : NoSlash p)
    (ht : t < 2 ^ 53) :
    ∀ store : Datastore, RowsOK store cid →
      (dsQuery (dsPut store (providerRecordKey cid p) (varintEncode t))
          (makeProviderKey cid)).map rowView
        = pmSet ((dsQuery store (makeProviderKey cid)).map rowView) p t := by
  intro store
  induction store with
  | nil =>
    intro _
    simp [dsPut, dsQuery, mk_pre_recordKey, pmSet, rowView_record hcid hp ht]
  | cons e rest ih =>
    intro hrows
    have hm1 : (makeProviderKey cid).isPrefixOf (providerRecordKey cid p) = true :=
      mk_pre_recordKey cid p
    by_cases he : e.1 = providerRecordKey cid p
    · have hrow : GoodRow cid e := hrows e (by simp) (by rw [he]; exact hm1)
      have hpeer : rowPeer e = p := by
        have hkeq := hrow.key_eq hcid
        rw [he] at hkeq
        exact (providerRecordKey_inj_peer hkeq).symm
      have hem : (makeProviderKey cid).isPrefixOf e.1 = true := by rw [he]; exact hm1
      simp only [dsPut, he, if_true, dsQuery, List.filter_cons, hm1, hem, if_true,
        List.map_cons]
      rw [rowView_record hcid hp ht, show rowView e = (rowPeer e, rowTime e) from rfl,
        hpeer]
      simp [pmSet]
    · simp only [dsPut, he, if_false]
      cases hm : (makeProviderKey cid).isPrefixOf e.1 with
      | true =>
        have hrow : GoodRow cid e := hrows e (by simp) hm
        have hpeer_ne : rowPeer e ≠ p := by
          intro hpe
          exact he (by rw [hrow.key_eq hcid, hpe])
        have ihr := ih hrows.tail
        simp only [dsQuery] at ihr
        simp only [dsQuery, List.filter_cons, hm, if_true, List.map_cons, ihr]
        simp [pmSet, rowView, hpeer_ne]
      | false =>
        simp only [dsQuery, List.filter_cons, hm, Bool.false_eq_true, if_false]
        exact ih hrows.tail

theorem RowsOK.dsPut_good {store : Datastore} {cid p : Str} {t : Nat}
    (hrows : RowsOK store cid) (hp : NoSlash p) (ht : t < 2 ^ 53) :
    RowsOK (dsPut store (providerRecordKey cid p) (varintEncode t)) cid := by
  intro e he hm
  rcases mem_dsPut _ _ _ e he with h | h
  · exact ⟨p, t, hp, ht, by rw [h], by rw [h]⟩
  · exact hrows e h hm

theorem loadProviders_dsPut {store : Datastore} {cid p : Str} {t : Nat}
    (hcid : NoSlash cid) (hp : NoSlash p) (ht : t < 2 ^ 53)
    (hnd : (store.map Prod.fst).Nodup) (hrows : RowsOK store cid) :
    loadProviders (dsPut store (providerRecordKey cid p) (varintEncode t)) cid
      = .ok (pmSet ((dsQuery store (makeProviderKey cid)).map rowView) p t) := by
  rw [loadProviders_eq_of_rows hcid (keys_dsPut_nodup _ _ hnd) (hrows.dsPut_good hp ht)]
  rw [dsQuery_dsPut_view hcid hp ht store hrows]

theorem loadEntriesAcc_error_of_bad :
    ∀ (l : List (Str × Bytes)) (acc : PeerMap),
      (∃ e ∈ l, parseProviderKey e.1 = none ∨ varintDecode e.2 = none) →
      ∃ err, loadEntriesAcc l acc = .error err := by
  intro l
  induction l with
  | nil => intro acc h; simp at h
  | cons e rest ih =>
    intro acc hbad
    cases hp : parseProviderKey e.1 with
    | none => exact ⟨.malformedKey, by simp [loadEntriesAcc, hp]⟩
    | some kp =>
      cases hv : varintDecode e.2 with
      | none => exact ⟨.malformedRecord, by simp [loadEntriesAcc, hp, hv]⟩
      | some t =>
        obtain ⟨e2, he2, hbad2⟩ := hbad
        rcases List.mem_cons.mp he2 with rfl | he2
        · rcases hbad2 with h | h
          · rw [hp] at h; exact absurd h (by simp)
          · rw [hv] at h; exact absurd h (by simp)
        · obtain ⟨err, herr⟩ := ih (pmSet acc kp.2 t) ⟨e2, he2, hbad2⟩
          exact ⟨err, by simp [loadEntriesAcc, hp, hv, herr]⟩

theorem mem_keys_pmSet_of_mem {m : PeerMap} {p : Str} (q : Str) (t : Nat)
    (h : p ∈ m.map Prod.fst) : p ∈ (pmSet m q t).map Prod.fst := by
  rw [keys_pmSet]
  by_cases hq : q ∈ m.map Prod.fst
  · rw [if_pos hq]; exact h
  · rw [if_neg hq]; exact List.mem_append.mpr (Or.inl h)

theorem mem_keys_loadEntriesAcc_ok :
    ∀ (l : List (Str × Bytes)) (acc m : PeerMap), loadEntriesAcc l acc = .ok m →
      ∀ p, p ∈ acc.map Prod.fst → p ∈ m.map Prod.fst := by
  intro l
  induction l with
  | nil =>
    intro acc m h p hp
    simp only [loadEntriesAcc, Except.ok.injEq] at h
    exact h ▸ hp
  | cons e rest ih =>
    intro acc m h p hp
    cases hpe : parseProviderKey e.1 with
    | none => simp [loadEntriesAcc, hpe] at h
    | some kp =>
      cases hv : varintDecode e.2 with
      | none => simp [loadEntriesAcc, hpe, hv] at h
      | some t =>
        simp only [loadEntriesAcc, hpe, hv] at h
        exact ih _ m h p (mem_keys_pmSet_of_mem kp.2 t hp)

theorem rowPeer_mem_loadEntriesAcc_ok :
    ∀ (l : List (Str × Bytes)) (acc m : PeerMap), loadEntriesAcc l acc = .ok m →
      ∀ e ∈ l, ∀ c q, parseProviderKey e.1 = some (c, q) → q ∈ m.map Prod.fst := by
  intro l
  induction l with
  | nil => intro acc m _ e he; simp at he
  | cons e0 rest ih =>
    intro acc m h e he c q hpe
    cases hp0 : parseProviderKey e0.1 with
    | none => simp [loadEntriesAcc, hp0] at h
    | some kp0 =>
      cases hv0 : varintDecode e0.2 with
      | none => simp [loadEntriesAcc, hp0, hv0] at h
      | some t0 =>
        simp only [loadEntriesAcc, hp0, hv0] at h
        rcases List.mem_cons.mp he with rfl | he2
        · have hq : q = kp0.2 := by
            rw [hpe] at hp0
            simp only [Option.some.injEq] at hp0
            rw [← hp0]
          exact mem_keys_loadEntriesAcc_ok rest _ m h q
            (by rw [hq]; exact mem_keys_pmSet acc kp0.2 t0)
        · exact ih _ m h e he2 c q hpe

theorem keys_nodup_loadEntriesAcc_ok :
    ∀ (l : List (Str × Bytes)) (acc m : PeerMap), (acc.map Prod.fst).Nodup →
      loadEntriesAcc l acc = .ok m → (m.map Prod.fst).Nodup := by
  intro l
  induction l with
  | nil =>
    intro acc m hnd h
    simp only [loadEntriesAcc, Except.ok.injEq] at h
    exact h ▸ hnd
  | cons e rest ih =>
    intro acc m hnd h
    cases hpe : parseProviderKey e.1 with
    | none => simp [loadEntriesAcc, hpe] at h
    | some kp =>
      cases hv : varintDecode e.2 with
      | none => simp [loadEntriesAcc, hpe, hv] at h
      | some t =>
        simp only [loadEntriesAcc, hpe, hv] at h
        exact ih _ m (keys_pmSet_nodup kp.2 t hnd) h

/-! ## Branch lemmas for the operations -/

theorem getProvidersMap_hit {s : ProvidersState} {cid : Str} {m : PeerMap}
    (h : lruFind s.cache (makeProviderKey cid) = some m) :
    getProvidersMap s cid =
      .ok (m, ⟨s.datastore, (lruGet s.cache (makeProviderKey cid)).2⟩) := by
  rcases hg : lruGet s.cache (makeProviderKey cid) with ⟨f, c1⟩
  have hfst : f = some m := by
    have := lruGet_fst s.cache (makeProviderKey cid)
    rw [hg] at this
    rw [← h, ← this]
  subst hfst
  simp [getProvidersMap, hg]

theorem getProvidersMap_miss {s : ProvidersState} {cid : Str}
    (h : lruFind s.cache (makeProviderKey cid) = none) :
    getProvidersMap s cid =
      match loadProviders s.datastore cid with
      | .error e => .error e
      | .ok provs =>
        .ok (provs, ⟨s.datastore, lruSet s.cache (makeProviderKey cid) provs⟩) := by
  rcases hg : lruGet s.cache (makeProviderKey cid) with ⟨f, c1⟩
  have hfst : f = none := by
    have := lruGet_fst s.cache (makeProviderKey cid)
    rw [hg] at this
    rw [← h, ← this]
  subst hfst
  simp [getProvidersMap, hg]

theorem addProvider_hit {s : ProvidersState} {cid : Str} {m : PeerMap} (peer : Str) (now : Nat)
    (h : lruFind s.cache (makeProviderKey cid) = some m) :
    addProvider s cid peer now = .ok
      ⟨dsPut s.datastore (providerRecordKey cid peer) (varintEncode now),
        lruSet (lruGet s.cache (makeProviderKey cid)).2 (makeProviderKey cid)
          (pmSet m peer now)⟩ := by
  rw [addProvider, getProvidersMap_hit h]

theorem addProvider_miss_ok {s : ProvidersState} {cid : Str} {m : PeerMap} (peer : Str) (now : Nat)
    (hc : lruFind s.cache (makeProviderKey cid) = none)
    (hl : loadProviders s.datastore cid = .ok m) :
    addProvider s cid peer now = .ok
      ⟨dsPut s.datastore (providerRecordKey cid peer) (varintEncode now),
        lruSet (lruSet s.cache (makeProviderKey cid) m) (makeProviderKey cid)
          (pmSet m peer now)⟩ := by
  rw [addProvider, getProvidersMap_miss hc, hl]

theorem addProvider_miss_err {s : ProvidersState} {cid : Str} {err : ProvError}
    (peer : Str) (now : Nat)
    (hc : lruFind s.cache (makeProviderKey cid) = none)
    (hl : loadProviders s.datastore cid = .error err) :
    addProvider s cid peer now = .error err := by
  rw [addProvider, getProvidersMap_miss hc, hl]

theorem getProviders_hit {s : ProvidersState} {cid : Str} {m : PeerMap}
    (h : lruFind s.cache (makeProviderKey cid) = some m) :
    getProviders s cid = .ok (m.map Prod.fst,
      ⟨s.datastore, (lruGet s.cache (makeProviderKey cid)).2⟩) := by
  rw [getProviders, getProvidersMap_hit h]

theorem getProviders_miss_ok {s : ProvidersState} {cid : Str} {m : PeerMap}
    (hc : lruFind s.cache (makeProviderKey cid) = none)
    (hl : loadProviders s.datastore cid = .ok m) :
    getProviders s cid = .ok (m.map Prod.fst,
      ⟨s.datastore, lruSet s.cache (makeProviderKey cid) m⟩) := by
  rw [getProviders, getProvidersMap_miss hc, hl]

theorem getProviders_miss_err {s : ProvidersState} {cid : Str} {err : ProvError}
    (hc : lruFind s.cache (makeProviderKey cid) = none)
    (hl : loadProviders s.datastore cid = .error err) :
    getProviders s cid = .error err := by
  rw [getProviders, getProvidersMap_miss hc, hl]

theorem lruFind_lruRemove_self (c : LruCache) (k : Str) :
    lruFind (lruRemove c k) k = none := by
  unfold lruRemove lruFind
  cases hf : (c.entries.filter (fun e2 => e2.1 != k)).find? (fun e => e.1 == k) with
  | none => rfl
  | some e =>
    exfalso
    have hmem := List.mem_of_find?_eq_some hf
    have h1 : e.1 ≠ k := by simpa using List.of_mem_filter hmem
    have h2 : e.1 = k := by simpa using List.find?_some hf
    exact h1 h2

theorem lruFind_lruSet_self_or (c : LruCache) (k : Str) (m : PeerMap) :
    lruFind (lruSet c k m) k = none ∨ lruFind (lruSet c k m) k = some m := by
  cases hcap : c.cap with
  | zero =>
    left
    simp [lruSet, lruFind, hcap]
  | succ n =>
    right
    exact lruFind_lruSet_self c k m (by omega)

theorem assoc_value_unique {α : Type} {l : List (Str × α)} {k : Str} {v v2 : α}
    (hnd : (l.map Prod.fst).Nodup) (h1 : (k, v) ∈ l) (h2 : (k, v2) ∈ l) : v = v2 := by
  induction l with
  | nil => simp at h1
  | cons e rest ih =>
    rw [List.map_cons, List.nodup_cons] at hnd
    rcases List.mem_cons.mp h1 with hh1 | hh1 <;> rcases List.mem_cons.mp h2 with hh2 | hh2
    · rw [← hh2] at hh1
      exact (Prod.ext_iff.mp hh1).2
    · exfalso
      apply hnd.1
      have hm : k ∈ rest.map Prod.fst := List.mem_map.mpr ⟨(k, v2), hh2, rfl⟩
      rw [← hh1]
      exact hm
    · exfalso
      apply hnd.1
      have hm : k ∈ rest.map Prod.fst := List.mem_map.mpr ⟨(k, v), hh1, rfl⟩
      rw [← hh2]
      exact hm
    · exact ih hnd.2 hh1 hh2

theorem mem_sweepScan {validity now : Nat} {store : Datastore} {x : Str × Str × Str}
    (h : x ∈ sweepScan validity now store) :
    ∃ e ∈ dsQuery store providerKeyRoot,
      entrySweepVerdict validity now e = some (x.2.1, x.2.2) ∧ x.1 = e.1 := by
  obtain ⟨e, he, hx⟩ := List.mem_filterMap.mp h
  cases hv : entrySweepVerdict validity now e with
  | none => rw [hv] at hx; simp at hx
  | some kp =>
    rw [hv] at hx
    have hx2 : (e.1, kp.1, kp.2) = x := by simpa using hx
    refine ⟨e, he, ?_, ?_⟩
    · rw [hv, ← hx2]
    · rw [← hx2]

theorem sweepScan_mem_of_entry {validity now : Nat} {store : Datastore} {e : Str × Bytes}
    {c q : Str} (he : e ∈ dsQuery store providerKeyRoot)
    (hv : entrySweepVerdict validity now e = some (c, q)) :
    (e.1, c, q) ∈ sweepScan validity now store := by
  apply List.mem_filterMap.mpr
  exact ⟨e, he, by rw [hv]; rfl⟩

theorem keys_addDeleted (acc : List (Str × List Str)) (c p : Str) :
    (addDeleted acc c p).map Prod.fst =
      if c ∈ acc.map Prod.fst then acc.map Prod.fst else acc.map Prod.fst ++ [c] := by
  induction acc with
  | nil => simp [addDeleted]
  | cons g rest ih =>
    obtain ⟨c0, ps0⟩ := g
    by_cases h : c0 = c
    · simp [addDeleted, h]
    · have hcc : ¬ c = c0 := fun hh => h hh.symm
      by_cases hm : c ∈ rest.map Prod.fst <;>
        simp [addDeleted, h, ih, hm, hcc]

theorem mem_keys_addDeleted_old {acc : List (Str × List Str)} {x : Str} (c p : Str)
    (h : x ∈ acc.map Prod.fst) : x ∈ (addDeleted acc c p).map Prod.fst := by
  rw [keys_addDeleted]
  by_cases hm : c ∈ acc.map Prod.fst
  · rw [if_pos hm]; exact h
  · rw [if_neg hm]; exact List.mem_append.mpr (Or.inl h)

theorem mem_keys_addDeleted_self (acc : List (Str × List Str)) (c p : Str) :
    c ∈ (addDeleted acc c p).map Prod.fst := by
  rw [keys_addDeleted]
  by_cases hm : c ∈ acc.map Prod.fst
  · rw [if_pos hm]; exact hm
  · rw [if_neg hm]; exact List.mem_append.mpr (Or.inr (by simp))

theorem nodup_keys_addDeleted {acc : List (Str × List Str)} (c p : Str)
    (h : (acc.map Prod.fst).Nodup) : ((addDeleted acc c p).map Prod.fst).Nodup := by
  rw [keys_addDeleted]
  by_cases hm : c ∈ acc.map Prod.fst
  · rw [if_pos hm]; exact h
  · rw [if_neg hm]
    exact List.Nodup.append h (List.nodup_singleton c) (by simpa using hm)

theorem mem_addDeleted_of_nodup :
    ∀ {acc : List (Str × List Str)}, (acc.map Prod.fst).Nodup →
      ∀ {c p : Str} {g : Str × List Str}, g ∈ addDeleted acc c p →
      (g ∈ acc ∧ g.1 ≠ c) ∨
      (∃ ps0, (c, ps0) ∈ acc ∧ g = (c, if p ∈ ps0 then ps0 else ps0 ++ [p])) ∨
      (c ∉ acc.map Prod.fst ∧ g = (c, [p])) := by
  intro acc
  induction acc with
  | nil =>
    intro _ c p g h
    simp only [addDeleted, List.mem_singleton] at h
    exact Or.inr (Or.inr ⟨by simp, h⟩)
  | cons g0 rest ih =>
    intro hnd c p g h
    obtain ⟨c0, ps0⟩ := g0
    rw [List.map_cons, List.nodup_cons] at hnd
    by_cases hc : c0 = c
    · subst hc
      simp only [addDeleted, if_true] at h
      rcases List.mem_cons.mp h with hh | hh
      · exact Or.inr (Or.inl ⟨ps0, by simp, hh⟩)
      · have hfst : g.1 ∈ rest.map Prod.fst := List.mem_map_of_mem Prod.fst hh
        refine Or.inl ⟨List.mem_cons_of_mem _ hh, ?_⟩
        intro hgc
        exact hnd.1 (hgc ▸ hfst)
    · simp only [addDeleted, hc, if_false] at h
      rcases List.mem_cons.mp h with hh | hh
      · refine Or.inl ⟨by rw [hh]; simp, ?_⟩
        rw [hh]
        exact hc
      · rcases ih hnd.2 hh with h1 | h1 | h1
        · exact Or.inl ⟨List.mem_cons_of_mem _ h1.1, h1.2⟩
        · obtain ⟨ps1, hps1, hg⟩ := h1
          exact Or.inr (Or.inl ⟨ps1, List.mem_cons_of_mem _ hps1, hg⟩)
        · refine Or.inr (Or.inr ⟨?_, h1.2⟩)
          intro hmem
          rw [List.map_cons, List.mem_cons] at hmem
          rcases hmem with hh2 | hh2
          · exact hc hh2.symm
          · exact h1.1 hh2

theorem addDeleted_good {acc : List (Str × List Str)} {pairs : List (Str × Str)} (c p : Str)
    (h : GroupsGood acc pairs) : GroupsGood (addDeleted acc c p) (pairs ++ [(c, p)]) := by
  obtain ⟨hnd, hiff, hclose⟩ := h
  refine ⟨nodup_keys_addDeleted c p hnd, ?_, ?_⟩
  · intro g hg q
    rcases mem_addDeleted_of_nodup hnd hg with h1 | h1 | h1
    · rw [hiff g h1.1 q]
      constructor
      · intro hq; exact List.mem_append.mpr (Or.inl hq)
      · intro hq
        rcases List.mem_append.mp hq with hq | hq
        · exact hq
        · exfalso
          have heq : (g.1, q) = (c, p) := by simpa using hq
          injection heq with hA hB
          exact h1.2 hA
    · obtain ⟨ps0, hps0, hg2⟩ := h1
      have hfst : g.1 = c := by rw [hg2]
      have hsnd : g.2 = (if p ∈ ps0 then ps0 else ps0 ++ [p]) := by rw [hg2]
      rw [hfst, hsnd]
      have base := hiff (c, ps0) hps0 q
      constructor
      · intro hq
        by_cases hmem : p ∈ ps0
        · rw [if_pos hmem] at hq
          exact List.mem_append.mpr (Or.inl (base.mp hq))
        · rw [if_neg hmem] at hq
          rcases List.mem_append.mp hq with hq | hq
          · exact List.mem_append.mpr (Or.inl (base.mp hq))
          · have : q = p := by simpa using hq
            exact List.mem_append.mpr (Or.inr (by simp [this]))
      · intro hq
        rcases List.mem_append.mp hq with hq | hq
        · have hq2 := base.mpr hq
          by_cases hmem : p ∈ ps0
          · rw [if_pos hmem]; exact hq2
          · rw [if_neg hmem]; exact List.mem_append.mpr (Or.inl hq2)
        · have hqp : q = p := by
            have : (c, q) = (c, p) := by simpa using hq
            exact (Prod.ext_iff.mp this).2
          by_cases hmem : p ∈ ps0
          · rw [if_pos hmem, hqp]; exact hmem
          · rw [if_neg hmem, hqp]; exact List.mem_append.mpr (Or.inr (by simp))
    · have hfst : g.1 = c := by rw [h1.2]
      have hsnd : g.2 = [p] := by rw [h1.2]
      rw [hfst, hsnd]
      constructor
      · intro hq
        have : q = p := by simpa using hq
        exact List.mem_append.mpr (Or.inr (by simp [this]))
      · intro hq
        rcases List.mem_append.mp hq with hq | hq
        · exact absurd (hclose c q hq) h1.1
        · have : (c, q) = (c, p) := by simpa using hq
          simpa using (Prod.ext_iff.mp this).2
  · intro c2 q hq
    rcases List.mem_append.mp hq with hq | hq
    · exact mem_keys_addDeleted_old c p (hclose c2 q hq)
    · have heq : (c2, q) = (c, p) := by simpa using hq
      injection heq with hA hB
      rw [hA]
      exact mem_keys_addDeleted_self acc c p

theorem foldl_addDeleted_good :
    ∀ (l : List (Str × Str × Str)) (acc : List (Str × List Str)) (done : List (Str × Str)),
      GroupsGood acc done →
      GroupsGood (l.foldl (fun m e => addDeleted m e.2.1 e.2.2) acc)
        (done ++ l.map (fun e => e.2)) := by
  intro l
  induction l with
  | nil => intro acc done h; simpa using h
  | cons e rest ih =>
    intro acc done h
    rw [List.foldl_cons, List.map_cons, List.append_cons]
    have := ih (addDeleted acc e.2.1 e.2.2) (done ++ [(e.2.1, e.2.2)])
      (addDeleted_good e.2.1 e.2.2 h)
    simpa using this

theorem groupDeleted_good (l : List (Str × Str × Str)) :
    GroupsGood (groupDeleted l) (l.map (fun e => e.2)) := by
  have := foldl_addDeleted_good l [] [] ⟨by simp, by simp, by simp⟩
  simpa [groupDeleted] using this

theorem reconcileOne_eq (ca : LruCache) (cid : Str) (peers : List Str) :
    reconcileOne ca cid peers =
      match lruFind ca (makeProviderKey cid) with
      | none => (lruGet ca (makeProviderKey cid)).2
      | some provs =>
        if (peers.foldl pmDelete provs).length = 0 then
          lruRemove (lruGet ca (makeProviderKey cid)).2 (makeProviderKey cid)
        else
          lruSet (lruGet ca (makeProviderKey cid)).2 (makeProviderKey cid)
            (peers.foldl pmDelete provs) := by
  unfold reconcileOne
  rcases hg : lruGet ca (makeProviderKey cid) with ⟨f, cache1⟩
  have hf : f = lruFind ca (makeProviderKey cid) := by rw [← lruGet_fst, hg]
  cases f with
  | none => simp [← hf, hg]
  | some provs => simp [← hf, hg]

theorem cachePeerTime_reconcileOne_other {ca : LruCache} {c p g1 : Str} (ps1 : List Str)
    (hne : g1 ≠ c) (h : cachePeerTime ca c p = none) :
    cachePeerTime (reconcileOne ca g1 ps1) c p = none := by
  have hkey : makeProviderKey c ≠ makeProviderKey g1 :=
    fun hh => hne (makeProviderKey_inj hh).symm
  rw [reconcileOne_eq]
  cases hf : lruFind ca (makeProviderKey g1) with
  | none =>
    unfold cachePeerTime at h ⊢
    rw [lruFind_touch]
    exact h
  | some provs =>
    by_cases hlen : (ps1.foldl pmDelete provs).length = 0
    · simp only [hlen, if_true]
      unfold cachePeerTime at h ⊢
      rw [lruFind_lruRemove_ne _ _ hkey, lruFind_touch]
      exact h
    · simp only [hlen, if_false]
      unfold cachePeerTime at h ⊢
      rcases lruFind_lruSet_ne ((lruGet ca (makeProviderKey g1)).2) (makeProviderKey g1)
          (ps1.foldl pmDelete provs) hkey with hor | hor
      · rw [hor]
      · rw [hor, lruFind_touch]
        exact h

theorem fold_reconcile_preserve_none :
    ∀ (groups : List (Str × List Str)) (ca : LruCache) {c p : Str},
      (∀ g ∈ groups, g.1 ≠ c) → cachePeerTime ca c p = none →
      cachePeerTime (groups.foldl (fun x g => reconcileOne x g.1 g.2) ca) c p = none := by
  intro groups
  induction groups with
  | nil => intro ca c p _ h; simpa using h
  | cons g rest ih =>
    intro ca c p hne h
    rw [List.foldl_cons]
    exact ih _ (fun g2 hg2 => hne g2 (List.mem_cons_of_mem _ hg2))
      (cachePeerTime_reconcileOne_other g.2 (hne g (by simp)) h)

theorem reconcileOne_self {ca : LruCache} {c p : Str} {ps : List Str} (hp : p ∈ ps) :
    cachePeerTime (reconcileOne ca c ps) c p = none := by
  rw [reconcileOne_eq]
  cases hf : lruFind ca (makeProviderKey c) with
  | none =>
    unfold cachePeerTime
    rw [lruFind_touch, hf]
  | some provs =>
    by_cases hlen : (ps.foldl pmDelete provs).length = 0
    · simp only [hlen, if_true]
      unfold cachePeerTime
      rw [lruFind_lruRemove_self]
    · simp only [hlen, if_false]
      unfold cachePeerTime
      rcases lruFind_lruSet_self_or ((lruGet ca (makeProviderKey c)).2) (makeProviderKey c)
          (ps.foldl pmDelete provs) with hor | hor
      · rw [hor]
      · rw [hor]
        exact pmLookup_foldl_pmDelete_of_mem provs hp

theorem fold_reconcile_deleted :
    ∀ (groups : List (Str × List Str)) (ca : LruCache) {c : Str} {ps : List Str} {p : Str},
      (groups.map Prod.fst).Nodup → (c, ps) ∈ groups → p ∈ ps →
      cachePeerTime (groups.foldl (fun x g => reconcileOne x g.1 g.2) ca) c p = none := by
  intro groups
  induction groups with
  | nil => intro ca c ps p _ h; simp at h
  | cons g rest ih =>
    intro ca c ps p hnd hmem hp
    rw [List.map_cons, List.nodup_cons] at hnd
    rw [List.foldl_cons]
    rcases List.mem_cons.mp hmem with hh | hh
    · have hg1 : g.1 = c := by rw [← hh]
      have hg2 : g.2 = ps := by rw [← hh]
      apply fold_reconcile_preserve_none rest _ ?_ ?_
      · intro g2 hg2mem heq
        apply hnd.1
        rw [hg1, ← heq]
        exact List.mem_map_of_mem Prod.fst hg2mem
      · rw [hg1, hg2]
        exact reconcileOne_self hp
    · have hne : g.1 ≠ c := by
        intro heq
        apply hnd.1
        rw [heq]
        exact List.mem_map.mpr ⟨(c, ps), hh, rfl⟩
      exact ih _ hnd.2 hh hp

/-! ## Sweep survival helper -/

theorem cleanup_keeps_of_verdict_none {validity now : Nat} {s : ProvidersState}
    {k : Str} {v : Bytes}
    (hnd : (s.datastore.map Prod.fst).Nodup) (hmem : (k, v) ∈ s.datastore)
    (hverdict : entrySweepVerdict validity now (k, v) = none) :
    (k, v) ∈ (cleanup validity s now).datastore := by
  have hds : (cleanup validity s now).datastore =
      (if (sweepScan validity now s.datastore).isEmpty then s.datastore
       else s.datastore.filter
         (fun e => ! ((sweepScan validity now s.datastore).map (fun x => x.1)).contains e.1)) :=
    rfl
  rw [hds]
  by_cases hempty : (sweepScan validity now s.datastore).isEmpty = true
  · rw [if_pos hempty]
    exact hmem
  · rw [if_neg hempty]
    apply List.mem_filter.mpr
    refine ⟨hmem, ?_⟩
    by_cases hink : k ∈ (sweepScan validity now s.datastore).map (fun x => x.1)
    · exfalso
      obtain ⟨x, hx, hx1⟩ := List.mem_map.mp hink
      obtain ⟨e, he, hev, hxe⟩ := mem_sweepScan hx
      have hek : e.1 = k := by rw [← hxe, hx1]
      have hestore : e ∈ s.datastore := List.mem_of_mem_filter he
      have hee : (k, e.2) ∈ s.datastore := by
        rw [← hek]
        exact hestore
      have hveq : e.2 = v := assoc_value_unique hnd hee hmem
      have hcontra : entrySweepVerdict validity now (k, v) = some (x.2.1, x.2.2) := by
        rw [← hek, ← hveq]
        exact hev
      rw [hverdict] at hcontra
      exact Option.noConfusion hcontra
    · have hcf : ((sweepScan validity now s.datastore).map (fun x => x.1)).contains k = false := by
        cases hc : ((sweepScan validity now s.datastore).map (fun x => x.1)).contains k with
        | false => rfl
        | true => exact absurd (List.mem_of_elem_eq_true hc) hink
      show (! ((sweepScan validity now s.datastore).map (fun x => x.1)).contains k) = true
      rw [hcf]
      rfl

/-! ## Claim theorems and witnesses -/

/-- C9: timestamp round-trip — for every integer `t` with `0 ≤ t < 2 ^ 53`,
decoding the LEB128 unsigned-varint encoding of `t` returns `t`. -/
theorem timestamp_round_trip (t : Nat) (ht : t < 2 ^ 53) :
    varintDecode (varintEncode t) = some t :=
  varintDecode_varintEncode ht

theorem timestamp_round_trip_witness :
    300 < 2 ^ 53 ∧ varintDecode (varintEncode 300) = some 300 :=
  ⟨by norm_num, timestamp_round_trip 300 (by norm_num)⟩

/-- C5: key round-trip — for every cid `c` and peer `p` (canonical texts:
nonempty, slash-free), parsing the record key built for them succeeds and
returns exactly `(c, p)`; the built key splits on `'/'` into exactly five
parts counting the leading empty segment, with the cid text at index 3 and
the peer text at index 4. -/
theorem record_key_round_trip (cid peer : Str) (hc : NoSlash cid) (hp : NoSlash peer)
    (hc0 : cid ≠ []) (hp0 : peer ≠ []) :
    parseProviderKey (providerRecordKey cid peer) = some (cid, peer) ∧
    (splitSlash (providerRecordKey cid peer)).length = 5 ∧
    (splitSlash (providerRecordKey cid peer)).getD 3 [] = cid ∧
    (splitSlash (providerRecordKey cid peer)).getD 4 [] = peer := by
  refine ⟨parse_providerRecordKey hc hp, ?_, ?_, ?_⟩ <;>
    rw [splitSlash_recordKey hc hp] <;> rfl

theorem record_key_round_trip_witness :
    NoSlash ['c'] ∧ NoSlash ['p'] ∧ (['c'] : Str) ≠ [] ∧ (['p'] : Str) ≠ [] ∧
    (parseProviderKey (providerRecordKey ['c'] ['p']) = some (['c'], ['p']) ∧
      (splitSlash (providerRecordKey ['c'] ['p'])).length = 5 ∧
      (splitSlash (providerRecordKey ['c'] ['p'])).getD 3 [] = ['c'] ∧
      (splitSlash (providerRecordKey ['c'] ['p'])).getD 4 [] = ['p']) :=
  ⟨by decide, by decide, by decide, by decide,
    record_key_round_trip ['c'] ['p'] (by decide) (by decide) (by decide) (by decide)⟩

/-- C2: expiry is exact and strict — one completed sweep deletes from the
backend every readable record with `now − t > provideValidity` and removes the
corresponding peer from the CID's cache entry, and leaves every record with
`now − t ≤ provideValidity` in the backend. -/
theorem sweep_expiry_exact
    (validity now : Nat) (s : ProvidersState) (k : Str) (v : Bytes) (cid peer : Str) (t : Nat)
    (hnd : (s.datastore.map Prod.fst).Nodup)
    (hmem : (k, v) ∈ s.datastore)
    (hroot : providerKeyRoot.isPrefixOf k = true)
    (hk : parseProviderKey k = some (cid, peer))
    (hv : varintDecode v = some t) :
    ((k, v) ∈ (cleanup validity s now).datastore ↔ now - t ≤ validity) ∧
    (now - t > validity → cachePeerTime (cleanup validity s now).cache cid peer = none) := by
  have hquery : (k, v) ∈ dsQuery s.datastore providerKeyRoot :=
    List.mem_filter.mpr ⟨hmem, hroot⟩
  have hds : (cleanup validity s now).datastore =
      (if (sweepScan validity now s.datastore).isEmpty then s.datastore
       else s.datastore.filter
         (fun e => ! ((sweepScan validity now s.datastore).map (fun x => x.1)).contains e.1)) :=
    rfl
  have hca : (cleanup validity s now).cache =
      (groupDeleted (sweepScan validity now s.datastore)).foldl
        (fun c g => reconcileOne c g.1 g.2) s.cache := rfl
  by_cases hexp : now - t > validity
  · have hverdict : entrySweepVerdict validity now (k, v) = some (cid, peer) := by
      simp [entrySweepVerdict, hk, hv, hexp]
    have htrip : (k, cid, peer) ∈ sweepScan validity now s.datastore :=
      sweepScan_mem_of_entry hquery hverdict
    have hnonempty : (sweepScan validity now s.datastore).isEmpty ≠ true := by
      intro hemp
      rw [List.isEmpty_iff] at hemp
      rw [hemp] at htrip
      exact absurd htrip (List.not_mem_nil _)
    constructor
    · rw [hds, if_neg hnonempty]
      constructor
      · intro hmem2
        exfalso
        have hpred := List.of_mem_filter hmem2
        have hinkeys : k ∈ (sweepScan validity now s.datastore).map (fun x => x.1) :=
          List.mem_map.mpr ⟨(k, cid, peer), htrip, rfl⟩
        have hconts : ((sweepScan validity now s.datastore).map (fun x => x.1)).contains k
            = true := List.elem_eq_true_of_mem hinkeys
        rw [hconts] at hpred
        simp at hpred
      · intro hle
        exact absurd hle (by omega)
    · intro _
      rw [hca]
      obtain ⟨hgnd, hgiff, hgclose⟩ := groupDeleted_good (sweepScan validity now s.datastore)
      have hpair : (cid, peer) ∈ (sweepScan validity now s.datastore).map (fun e => e.2) :=
        List.mem_map.mpr ⟨(k, cid, peer), htrip, rfl⟩
      obtain ⟨g, hgmem, hgfst⟩ := List.mem_map.mp (hgclose cid peer hpair)
      have hpeer : peer ∈ g.2 := (hgiff g hgmem peer).mpr (by rw [hgfst]; exact hpair)
      have hgmem2 : (cid, g.2) ∈ groupDeleted (sweepScan validity now s.datastore) := by
        rw [← hgfst]
        exact hgmem
      exact fold_reconcile_deleted _ s.cache hgnd hgmem2 hpeer
  · have hverdict : entrySweepVerdict validity now (k, v) = none := by
      simp [entrySweepVerdict, hk, hv, hexp]
    have hkeep := cleanup_keeps_of_verdict_none hnd hmem hverdict
    exact ⟨⟨fun _ => by omega, fun _ => hkeep⟩, fun h => absurd h hexp⟩

theorem sweep_expiry_exact_witness :
    ((providerRecordKey ['c'] ['p'], varintEncode 0)
        ∈ [(providerRecordKey ['c'] ['p'], varintEncode 0),
           (providerRecordKey ['c'] ['q'], varintEncode 35)]) ∧
    (((cleanup 30
        ⟨[(providerRecordKey ['c'] ['p'], varintEncode 0),
          (providerRecordKey ['c'] ['q'], varintEncode 35)],
          ⟨8, [(makeProviderKey ['c'], [(['p'], 0), (['q'], 35)])]⟩⟩ 40).datastore.contains
        (providerRecordKey ['c'] ['p'], varintEncode 0) = false) ∧
      cachePeerTime (cleanup 30
        ⟨[(providerRecordKey ['c'] ['p'], varintEncode 0),
          (providerRecordKey ['c'] ['q'], varintEncode 35)],
          ⟨8, [(makeProviderKey ['c'], [(['p'], 0), (['q'], 35)])]⟩⟩ 40).cache ['c'] ['p']
        = none) := by
  have h := sweep_expiry_exact 30 40
    ⟨[(providerRecordKey ['c'] ['p'], varintEncode 0),
      (providerRecordKey ['c'] ['q'], varintEncode 35)],
      ⟨8, [(makeProviderKey ['c'], [(['p'], 0), (['q'], 35)])]⟩⟩
    (providerRecordKey ['c'] ['p']) (varintEncode 0) ['c'] ['p'] 0
    (by decide) (by decide) (by decide) (by decide) (by decide)
  refine ⟨by decide, ?_, h.2 (by decide)⟩
  have hnm := (h.1).not.mpr (by decide)
  cases hc : ((cleanup 30
      ⟨[(providerRecordKey ['c'] ['p'], varintEncode 0),
        (providerRecordKey ['c'] ['q'], varintEncode 35)],
        ⟨8, [(makeProviderKey ['c'], [(['p'], 0), (['q'], 35)])]⟩⟩ 40).datastore.contains
      (providerRecordKey ['c'] ['p'], varintEncode 0)) with
  | false => rfl
  | true => exact absurd (List.mem_of_elem_eq_true hc) hnm

/-! ## Lemmas for the idempotent-refresh and read-after-write claims -/

theorem filter_key_nil_of_not_mem {store : Datastore} {k : Str}
    (h : k ∉ store.map Prod.fst) :
    store.filter (fun e => e.1 == k) = [] := by
  induction store with
  | nil => rfl
  | cons e rest ih =>
    have h1 : e.1 ≠ k := by
      intro hh
      exact h (by rw [← hh]; exact List.mem_map_of_mem Prod.fst (by simp))
    have h2 : k ∉ rest.map Prod.fst := fun hh => h (by simp [hh])
    have hb : (e.1 == k) = false := by simp [h1]
    simp [List.filter_cons, hb, ih h2]

theorem dsPut_filter_key {store : Datastore} (k : Str) (v : Bytes)
    (hnd : (store.map Prod.fst).Nodup) :
    (dsPut store k v).filter (fun e => e.1 == k) = [(k, v)] := by
  induction store with
  | nil => simp [dsPut]
  | cons e rest ih =>
    rw [List.map_cons, List.nodup_cons] at hnd
    by_cases he : e.1 = k
    · simp only [dsPut, he, if_true]
      have : rest.filter (fun e2 => e2.1 == k) = [] :=
        filter_key_nil_of_not_mem (he ▸ hnd.1)
      simp [List.filter_cons, this]
    · have hb : (e.1 == k) = false := by simp [he]
      simp only [dsPut, he, if_false]
      simp [List.filter_cons, hb, ih hnd.2]

theorem loadEntriesAcc_ok_of_all :
    ∀ (l : List (Str × Bytes)) (acc : PeerMap),
      (∀ e ∈ l, (parseProviderKey e.1).isSome ∧ (varintDecode e.2).isSome) →
      ∃ m, loadEntriesAcc l acc = .ok m := by
  intro l
  induction l with
  | nil => intro acc _; exact ⟨acc, rfl⟩
  | cons e rest ih =>
    intro acc hall
    obtain ⟨hp, hv⟩ := hall e (by simp)
    obtain ⟨kp, hkp⟩ := Option.isSome_iff_exists.mp hp
    obtain ⟨t, ht⟩ := Option.isSome_iff_exists.mp hv
    obtain ⟨m, hm⟩ := ih (pmSet acc kp.2 t) (fun e2 he2 => hall e2 (List.mem_cons_of_mem _ he2))
    exact ⟨m, by simp [loadEntriesAcc, hkp, ht, hm]⟩

theorem all_of_loadEntriesAcc_ok :
    ∀ (l : List (Str × Bytes)) (acc m : PeerMap), loadEntriesAcc l acc = .ok m →
      ∀ e ∈ l, (parseProviderKey e.1).isSome ∧ (varintDecode e.2).isSome := by
  intro l
  induction l with
  | nil => intro acc m _ e he; simp at he
  | cons e0 rest ih =>
    intro acc m h e he
    cases hp0 : parseProviderKey e0.1 with
    | none => simp [loadEntriesAcc, hp0] at h
    | some kp0 =>
      cases hv0 : varintDecode e0.2 with
      | none => simp [loadEntriesAcc, hp0, hv0] at h
      | some t0 =>
        simp only [loadEntriesAcc, hp0, hv0] at h
        rcases List.mem_cons.mp he with rfl | he2
        · exact ⟨by simp [hp0], by simp [hv0]⟩
        · exact ih _ m h e he2

theorem mem_dsQuery_dsPut {store : Datastore} {k pre : Str} {v : Bytes} {e : Str × Bytes}
    (h : e ∈ dsQuery (dsPut store k v) pre) :
    e = (k, v) ∨ e ∈ dsQuery store pre := by
  have hmem := List.mem_of_mem_filter h
  have hpre := List.of_mem_filter h
  rcases mem_dsPut store k v e hmem with h1 | h1
  · exact Or.inl h1
  · exact Or.inr (List.mem_filter.mpr ⟨h1, hpre⟩)

theorem loadProviders_dsPut_isOk {store : Datastore} {cid peer : Str} {t : Nat} {m : PeerMap}
    (hc : NoSlash cid) (hp : NoSlash peer) (ht : t < 2 ^ 53)
    (hload : loadProviders store cid = .ok m) :
    ∃ m2, loadProviders (dsPut store (providerRecordKey cid peer) (varintEncode t)) cid
      = .ok m2 := by
  apply loadEntriesAcc_ok_of_all
  intro e he
  rcases mem_dsQuery_dsPut he with h1 | h1
  · constructor
    · rw [h1]
      simp [parse_providerRecordKey hc hp]
    · rw [h1]
      simp [varintDecode_varintEncode ht]
  · exact all_of_loadEntriesAcc_ok _ _ _ hload e h1

theorem providersHas_of_get {s : ProvidersState} {cid p : Str} {l : List Str}
    {s2 : ProvidersState} (h : getProviders s cid = .ok (l, s2)) (hmem : p ∈ l) :
    providersHas s cid p = true := by
  rw [providersHas, h]
  exact List.elem_eq_true_of_mem hmem

/-- C3: idempotent refresh — calling `addProvider(cid, peer)` at `t1` and
again at `t2 > t1` leaves exactly one backend record under the key for
`(cid, peer)`, whose value decodes to `t2`; the second call overwrites the
first and raises no error. -/
theorem add_provider_idempotent_refresh
    (s : ProvidersState) (cid peer : Str) (t1 t2 : Nat) (s1 : ProvidersState)
    (hc : NoSlash cid) (hp : NoSlash peer)
    (ht1 : t1 < 2 ^ 53) (ht2 : t2 < 2 ^ 53) (hlt : t1 < t2)
    (hnd : (s.datastore.map Prod.fst).Nodup)
    (hcap : 1 ≤ s.cache.cap)
    (h1 : addProvider s cid peer t1 = .ok s1) :
    (match addProvider s1 cid peer t2 with
     | .ok s2 => s2.datastore.filter (fun e => e.1 == providerRecordKey cid peer)
         = [(providerRecordKey cid peer, varintEncode t2)]
     | .error _ => False) ∧
    varintDecode (varintEncode t2) = some t2 := by
  refine ⟨?_, varintDecode_varintEncode ht2⟩
  have hmain : ∃ s2, addProvider s1 cid peer t2 = .ok s2 ∧
      s2.datastore =
        dsPut (dsPut s.datastore (providerRecordKey cid peer) (varintEncode t1))
          (providerRecordKey cid peer) (varintEncode t2) := by
    cases hf0 : lruFind s.cache (makeProviderKey cid) with
    | some m0 =>
      have heq1 := addProvider_hit peer t1 hf0
      rw [heq1] at h1
      injection h1 with hs1
      have hf1 : lruFind s1.cache (makeProviderKey cid) = some (pmSet m0 peer t1) := by
        rw [← hs1]
        exact lruFind_lruSet_self _ _ _ (by simpa [cap_lruTouch] using hcap)
      refine ⟨_, addProvider_hit peer t2 hf1, ?_⟩
      rw [← hs1]
    | none =>
      cases hl0 : loadProviders s.datastore cid with
      | error err =>
        rw [addProvider_miss_err peer t1 hf0 hl0] at h1
        exact absurd h1 (by simp)
      | ok m0 =>
        have heq1 := addProvider_miss_ok peer t1 hf0 hl0
        rw [heq1] at h1
        injection h1 with hs1
        cases hf1 : lruFind s1.cache (makeProviderKey cid) with
        | some m1 =>
          refine ⟨_, addProvider_hit peer t2 hf1, ?_⟩
          rw [← hs1]
        | none =>
          obtain ⟨m2, hm2⟩ : ∃ m2, loadProviders s1.datastore cid = .ok m2 := by
            rw [← hs1]
            exact loadProviders_dsPut_isOk hc hp ht1 hl0
          refine ⟨_, addProvider_miss_ok peer t2 hf1 hm2, ?_⟩
          rw [← hs1]
  obtain ⟨s2, hok, hds⟩ := hmain
  rw [hok]
  show s2.datastore.filter (fun e => e.1 == providerRecordKey cid peer)
    = [(providerRecordKey cid peer, varintEncode t2)]
  rw [hds]
  exact dsPut_filter_key _ _ (keys_dsPut_nodup _ _ hnd)

theorem add_provider_idempotent_refresh_witness :
    (NoSlash ['c'] ∧ NoSlash ['p'] ∧ (0 : Nat) < 2 ^ 53 ∧ (7 : Nat) < 2 ^ 53 ∧ (0 : Nat) < 7 ∧
      ((initState 8).datastore.map Prod.fst).Nodup ∧ 1 ≤ (initState 8).cache.cap ∧
      addProvider (initState 8) ['c'] ['p'] 0 =
        .ok ⟨[(providerRecordKey ['c'] ['p'], varintEncode 0)],
          ⟨8, [(makeProviderKey ['c'], [(['p'], 0)])]⟩⟩) ∧
    ((match addProvider
        ⟨[(providerRecordKey ['c'] ['p'], varintEncode 0)],
          ⟨8, [(makeProviderKey ['c'], [(['p'], 0)])]⟩⟩ ['c'] ['p'] 7 with
      | .ok s2 => s2.datastore.filter (fun e => e.1 == providerRecordKey ['c'] ['p'])
          = [(providerRecordKey ['c'] ['p'], varintEncode 7)]
      | .error _ => False) ∧
      varintDecode (varintEncode 7) = some 7) :=
  ⟨⟨by decide, by decide, by norm_num, by norm_num, by norm_num, by decide, by decide,
      by decide⟩,
    add_provider_idempotent_refresh (initState 8) ['c'] ['p'] 0 7
      ⟨[(providerRecordKey ['c'] ['p'], varintEncode 0)],
        ⟨8, [(makeProviderKey ['c'], [(['p'], 0)])]⟩⟩
      (by decide) (by decide) (by norm_num) (by norm_num) (by norm_num) (by decide)
      (by decide) (by decide)⟩

/-- C7: read-after-write — a `getProviders(cid)` admitted after a completed
`addProvider(cid, peer)` returns a list containing `peer`, both when the cache
entry for `cid` survives in between and when it has been evicted (modelled by
removing the entry before the read), the backend rows for `cid` being
readable. -/
theorem read_after_write
    (s : ProvidersState) (cid peer : Str) (t1 : Nat) (s1 : ProvidersState)
    (hc : NoSlash cid) (hp : NoSlash peer) (ht1 : t1 < 2 ^ 53)
    (hnd : (s.datastore.map Prod.fst).Nodup)
    (hrows : RowsOK s.datastore cid)
    (h1 : addProvider s cid peer t1 = .ok s1) :
    providersHas s1 cid peer = true ∧
    providersHas ⟨s1.datastore, lruRemove s1.cache (makeProviderKey cid)⟩ cid peer
      = true := by
  have hshape : s1.datastore =
      dsPut s.datastore (providerRecordKey cid peer) (varintEncode t1) ∧
      ∃ c2 provs, s1.cache = lruSet c2 (makeProviderKey cid) (pmSet provs peer t1) := by
    cases hf0 : lruFind s.cache (makeProviderKey cid) with
    | some m0 =>
      have heq1 := addProvider_hit peer t1 hf0
      rw [heq1] at h1
      injection h1 with hs1
      exact ⟨by rw [← hs1], ⟨_, m0, by rw [← hs1]⟩⟩
    | none =>
      cases hl0 : loadProviders s.datastore cid with
      | error err =>
        rw [addProvider_miss_err peer t1 hf0 hl0] at h1
        exact absurd h1 (by simp)
      | ok m0 =>
        have heq1 := addProvider_miss_ok peer t1 hf0 hl0
        rw [heq1] at h1
        injection h1 with hs1
        exact ⟨by rw [← hs1], ⟨_, m0, by rw [← hs1]⟩⟩
  obtain ⟨hds1, c2, provs, hcache1⟩ := hshape
  have hload1 : loadProviders s1.datastore cid =
      .ok (pmSet ((dsQuery s.datastore (makeProviderKey cid)).map rowView) peer t1) := by
    rw [hds1]
    exact loadProviders_dsPut hc hp ht1 hnd hrows
  constructor
  · cases hf1 : lruFind s1.cache (makeProviderKey cid) with
    | none =>
      apply providersHas_of_get (getProviders_miss_ok hf1 hload1)
      exact mem_keys_pmSet _ peer t1
    | some m1 =>
      have hm1 : m1 = pmSet provs peer t1 := by
        rcases lruFind_lruSet_self_or c2 (makeProviderKey cid) (pmSet provs peer t1)
            with hor | hor
        · rw [hcache1] at hf1
          rw [hf1] at hor
          exact absurd hor (by simp)
        · rw [hcache1] at hf1
          rw [hf1] at hor
          injection hor
      apply providersHas_of_get (getProviders_hit hf1)
      rw [hm1]
      exact mem_keys_pmSet _ peer t1
  · have hf2 : lruFind (lruRemove s1.cache (makeProviderKey cid)) (makeProviderKey cid)
        = none := lruFind_lruRemove_self _ _
    apply providersHas_of_get
      (getProviders_miss_ok (s := ⟨s1.datastore, lruRemove s1.cache (makeProviderKey cid)⟩)
        hf2 hload1)
    exact mem_keys_pmSet _ peer t1

theorem read_after_write_witness :
    (NoSlash ['c'] ∧ NoSlash ['p'] ∧ (3 : Nat) < 2 ^ 53 ∧
      ((initState 8).datastore.map Prod.fst).Nodup ∧
      addProvider (initState 8) ['c'] ['p'] 3 =
        .ok ⟨[(providerRecordKey ['c'] ['p'], varintEncode 3)],
          ⟨8, [(makeProviderKey ['c'], [(['p'], 3)])]⟩⟩) ∧
    (providersHas
        ⟨[(providerRecordKey ['c'] ['p'], varintEncode 3)],
          ⟨8, [(makeProviderKey ['c'], [(['p'], 3)])]⟩⟩ ['c'] ['p'] = true ∧
      providersHas
        ⟨(⟨[(providerRecordKey ['c'] ['p'], varintEncode 3)],
            ⟨8, [(makeProviderKey ['c'], [(['p'], 3)])]⟩⟩ : ProvidersState).datastore,
          lruRemove (⟨[(providerRecordKey ['c'] ['p'], varintEncode 3)],
            ⟨8, [(makeProviderKey ['c'], [(['p'], 3)])]⟩⟩ : ProvidersState).cache
            (makeProviderKey ['c'])⟩ ['c'] ['p'] = true) :=
  ⟨⟨by decide, by decide, by norm_num, by decide, by decide⟩,
    read_after_write (initState 8) ['c'] ['p'] 3
      ⟨[(providerRecordKey ['c'] ['p'], varintEncode 3)],
        ⟨8, [(makeProviderKey ['c'], [(['p'], 3)])]⟩⟩
      (by decide) (by decide) (by norm_num) (by decide)
      (fun e he => absurd he (List.not_mem_nil e)) (by decide)⟩

/-- C4 counterexample: the claim says `addProvider` skips a malformed entry
and never surfaces the error, but on a backend holding one truncated-varint
record under the CID's prefix (and a cold cache) `addProvider` fails with
`MalformedRecord`: `loadProviders` has no try/catch. -/
theorem malformed_containment_counterexample :
    errOf (addProvider
      ⟨[(providerRecordKey ['c'] ['p'], [200])], emptyLru 8⟩ ['c'] ['q'] 5)
      = some ProvError.malformedRecord := by decide

/-- C4 (amended): only the sweep logs and skips a malformed entry — the entry
survives the sweep untouched and the sweep completes — while `addProvider` and
`getProviders` surface an error when their cache-miss backend scan reaches
such an entry. -/
theorem malformed_entry_containment_amended
    (validity now : Nat) (s : ProvidersState) (k : Str) (v : Bytes)
    (cid peer : Str) (t2 : Nat)
    (hnd : (s.datastore.map Prod.fst).Nodup)
    (hmem : (k, v) ∈ s.datastore)
    (hbad : parseProviderKey k = none ∨ varintDecode v = none)
    (hcache : lruFind s.cache (makeProviderKey cid) = none)
    (hpre : (makeProviderKey cid).isPrefixOf k = true) :
    (k, v) ∈ (cleanup validity s now).datastore ∧
    (errOf (getProviders s cid)).isSome = true ∧
    (errOf (addProvider s cid peer t2)).isSome = true := by
  have hverdict : entrySweepVerdict validity now (k, v) = none := by
    rcases hbad with hb | hb
    · simp [entrySweepVerdict, hb]
    · cases hpk : parseProviderKey k with
      | none => simp [entrySweepVerdict, hpk]
      | some kp => simp [entrySweepVerdict, hpk, hb]
  have hqmem : (k, v) ∈ dsQuery s.datastore (makeProviderKey cid) :=
    List.mem_filter.mpr ⟨hmem, hpre⟩
  obtain ⟨err, herr⟩ := loadEntriesAcc_error_of_bad
    (dsQuery s.datastore (makeProviderKey cid)) [] ⟨(k, v), hqmem, hbad⟩
  have hload : loadProviders s.datastore cid = .error err := herr
  refine ⟨cleanup_keeps_of_verdict_none hnd hmem hverdict, ?_, ?_⟩
  · rw [getProviders_miss_err hcache hload]
    rfl
  · rw [addProvider_miss_err peer t2 hcache hload]
    rfl

theorem malformed_entry_containment_amended_witness :
    ((((⟨[(providerRecordKey ['c'] ['p'], [200])], emptyLru 8⟩ :
          ProvidersState).datastore.map Prod.fst).Nodup) ∧
      (providerRecordKey ['c'] ['p'], [200])
        ∈ (⟨[(providerRecordKey ['c'] ['p'], [200])], emptyLru 8⟩ :
            ProvidersState).datastore ∧
      (parseProviderKey (providerRecordKey ['c'] ['p']) = none ∨
        varintDecode [200] = none) ∧
      lruFind (emptyLru 8) (makeProviderKey ['c']) = none ∧
      (makeProviderKey ['c']).isPrefixOf (providerRecordKey ['c'] ['p']) = true) ∧
    ((providerRecordKey ['c'] ['p'], ([200] : Bytes))
        ∈ (cleanup 10 ⟨[(providerRecordKey ['c'] ['p'], [200])], emptyLru 8⟩ 20).datastore ∧
      (errOf (getProviders
          ⟨[(providerRecordKey ['c'] ['p'], [200])], emptyLru 8⟩ ['c'])).isSome = true ∧
      (errOf (addProvider
          ⟨[(providerRecordKey ['c'] ['p'], [200])], emptyLru 8⟩ ['c'] ['q'] 5)).isSome
        = true) :=
  ⟨⟨by decide, by decide, Or.inr (by decide), by decide, by decide⟩,
    malformed_entry_containment_amended 10 20
      ⟨[(providerRecordKey ['c'] ['p'], [200])], emptyLru 8⟩
      (providerRecordKey ['c'] ['p']) [200] ['c'] ['q'] 5
      (by decide) (by decide) (Or.inr (by decide)) (by decide) (by decide)⟩

/-- C8 counterexample: the claim says `getProviders` fails only with a
`BackendFailure`, but on a backend holding a key under the CID's string
prefix that does not split into five parts, `getProviders` fails with
`MalformedKey`, which is not a `BackendFailure`. -/
theorem backend_failure_only_counterexample :
    errOf (getProviders
        ⟨[(("/dht/provider/cc").toList, varintEncode 0)], emptyLru 8⟩ ['c'])
      = some ProvError.malformedKey ∧
    ProvError.malformedKey ≠ ProvError.backendFailure := by decide

/-- C8 (amended, the part the code satisfies): for a CID with no backend
records under its prefix and no cache entry, `getProviders` returns the empty
list and raises no error; scan-surfaced `MalformedKey` and `MalformedRecord`
failures are additionally possible, so `BackendFailure` is not the only error
kind. -/
theorem get_providers_empty_lookup (s : ProvidersState) (cid : Str)
    (hcache : lruFind s.cache (makeProviderKey cid) = none)
    (hq : dsQuery s.datastore (makeProviderKey cid) = []) :
    getProviders s cid =
      .ok ([], ⟨s.datastore, lruSet s.cache (makeProviderKey cid) []⟩) := by
  have hload : loadProviders s.datastore cid = .ok [] := by
    rw [loadProviders, hq]
    rfl
  rw [getProviders_miss_ok hcache hload]
  rfl

theorem get_providers_empty_lookup_witness :
    (lruFind (initState 8).cache (makeProviderKey ['c']) = none ∧
      dsQuery (initState 8).datastore (makeProviderKey ['c']) = []) ∧
    getProviders (initState 8) ['c'] =
      .ok ([], ⟨(initState 8).datastore,
        lruSet (initState 8).cache (makeProviderKey ['c']) []⟩) :=
  ⟨⟨by decide, by decide⟩,
    get_providers_empty_lookup (initState 8) ['c'] (by decide) (by decide)⟩

/-- C1 counterexample: the claim extends cache coherence to a mutating
operation that fails with a `BackendFailure` partway through; but when the
backend put of the second `addProvider` fails, the cache entry for the CID
holds peer `q` with timestamp 5 while the backend rows for the CID do not
contain `q` at all — the cache entry is a strict superset of the backend
rows, not equal and not a subset. -/
theorem cache_coherence_counterexample :
    ((((addProvider (initState 4) ['c'] ['p'] 0).bind
          (fun s1 => addProviderPutFails s1 ['c'] ['q'] 5)).toOption.map
        (fun s2 => (lruFind s2.cache (makeProviderKey ['c']),
          (loadProviders s2.datastore ['c']).toOption)))
      = some (some [(['p'], 0), (['q'], 5)], some [(['p'], 0)])) ∧
    pmLookup [(['p'], 0), (['q'], 5)] ['q'] = some 5 ∧
    pmLookup [(['p'], 0)] ['q'] = none ∧
    ([(['p'], 0), (['q'], 5)] : PeerMap) ≠ [(['p'], 0)] :=
  ⟨by decide, by decide, by decide, by decide⟩

theorem TraceInv.initial (C : List Str) (cap : Nat) : TraceInv C (initState cap) := by
  refine ⟨by simp [initState], ?_, ?_⟩
  · intro e he
    exact absurd he (List.not_mem_nil e)
  · intro e he
    exact absurd he (List.not_mem_nil e)

theorem TraceInv.rowsOK {C : List Str} {s : ProvidersState} (hC : CidsOK C)
    (hinv : TraceInv C s) {cid : Str} (hcid : cid ∈ C) :
    RowsOK s.datastore cid := by
  intro e he hm
  obtain ⟨c, q, t, hcC, hq, hq0, ht, hk, hv⟩ := hinv.store e he
  have hcompat : Compat cid c := hC.2 cid hcid c hcC
  have hcidok : CidOK cid := hC.1 cid hcid
  have hceq : cid = c := cid_eq_of_pre_record hcidok.1 hcompat (by rw [← hk]; exact hm)
  exact ⟨q, t, hq, ht, by rw [hk, hceq], hv⟩

theorem lruFind_mem {ca : LruCache} {k : Str} {m : PeerMap}
    (h : lruFind ca k = some m) : (k, m) ∈ ca.entries := by
  unfold lruFind at h
  cases hf : ca.entries.find? (fun e => e.1 == k) with
  | none => rw [hf] at h; exact absurd h (by simp)
  | some e0 =>
    rw [hf] at h
    have hm : e0.2 = m := by simpa using h
    have hk : e0.1 = k := by simpa using List.find?_some hf
    have := List.mem_of_find?_eq_some hf
    rw [← hk, ← hm]
    exact this

theorem mem_reconcileOne {ca : LruCache} {c0 : Str} {ps0 : List Str} {e : Str × PeerMap}
    (h : e ∈ (reconcileOne ca c0 ps0).entries) :
    (e ∈ ca.entries ∧ e.1 ≠ makeProviderKey c0) ∨
    (e.1 = makeProviderKey c0 ∧ ∃ m0, lruFind ca (makeProviderKey c0) = some m0 ∧
      e.2 = ps0.foldl pmDelete m0) := by
  unfold reconcileOne at h
  rcases hg : lruGet ca (makeProviderKey c0) with ⟨f, cache1⟩
  rw [hg] at h
  have hff : lruFind ca (makeProviderKey c0) = f := by rw [← lruGet_fst, hg]
  have hc1 : (lruGet ca (makeProviderKey c0)).2 = cache1 := by rw [hg]
  cases f with
  | none =>
    have hmem : e ∈ ca.entries := mem_lruTouch (by rw [hc1]; exact h)
    left
    refine ⟨hmem, ?_⟩
    intro hk
    unfold lruFind at hff
    cases hf2 : ca.entries.find? (fun e2 => e2.1 == makeProviderKey c0) with
    | some e2 => rw [hf2] at hff; exact absurd hff (by simp)
    | none =>
      have := List.find?_eq_none.mp hf2 e hmem
      simp [hk] at this
  | some provs =>
    have h2 : e ∈ (if (ps0.foldl pmDelete provs).length = 0 then
        lruRemove cache1 (makeProviderKey c0)
      else lruSet cache1 (makeProviderKey c0) (ps0.foldl pmDelete provs)).entries := h
    by_cases hlen : (ps0.foldl pmDelete provs).length = 0
    · rw [if_pos hlen] at h2
      have h3 := mem_lruRemove h2
      exact Or.inl ⟨mem_lruTouch (by rw [hc1]; exact h3.1), h3.2⟩
    · rw [if_neg hlen] at h2
      rcases mem_lruSet h2 with h1 | h1
      · right
        exact ⟨by rw [h1], provs, hff, by rw [h1]⟩
      · exact Or.inl ⟨mem_lruTouch (by rw [hc1]; exact h1.1), h1.2⟩

theorem reconcile_fold_general :
    ∀ (gs : List (Str × List Str)) (ca : LruCache) (Pm Qm : Str → PeerMap → Prop),
      (gs.map Prod.fst).Nodup →
      (∀ g ∈ gs, ∀ m, Qm g.1 m → Pm g.1 (g.2.foldl pmDelete m)) →
      (∀ e ∈ ca.entries, ∃ c, e.1 = makeProviderKey c ∧
        ((∃ g ∈ gs, g.1 = c) → Qm c e.2) ∧ ((∀ g ∈ gs, g.1 ≠ c) → Pm c e.2)) →
      ∀ e ∈ (gs.foldl (fun x g => reconcileOne x g.1 g.2) ca).entries,
        ∃ c, e.1 = makeProviderKey c ∧ Pm c e.2 := by
  intro gs
  induction gs with
  | nil =>
    intro ca Pm Qm _ _ hent e he
    obtain ⟨c, hk, _, hP⟩ := hent e he
    exact ⟨c, hk, hP (by simp)⟩
  | cons g rest ih =>
    intro ca Pm Qm hnd hstep hent e he
    rw [List.map_cons, List.nodup_cons] at hnd
    rw [List.foldl_cons] at he
    refine ih (reconcileOne ca g.1 g.2) Pm Qm hnd.2
      (fun g2 hg2 m hm => hstep g2 (List.mem_cons_of_mem _ hg2) m hm) ?_ e he
    intro e2 he2
    rcases mem_reconcileOne he2 with h1 | h1
    · obtain ⟨c, hk, hQ, hP⟩ := hent e2 h1.1
      have hgc : g.1 ≠ c := by
        intro heq
        exact h1.2 (by rw [hk, heq])
      refine ⟨c, hk, ?_, ?_⟩
      · intro hex
        obtain ⟨g2, hg2, hg2c⟩ := hex
        exact hQ ⟨g2, List.mem_cons_of_mem _ hg2, hg2c⟩
      · intro hall
        apply hP
        intro g2 hg2
        rcases List.mem_cons.mp hg2 with rfl | hg2
        · exact hgc
        · exact hall g2 hg2
    · obtain ⟨hk, m0, hfind, hval⟩ := h1
      have hmem0 := lruFind_mem hfind
      obtain ⟨c0, hk0, hQ0, _⟩ := hent _ hmem0
      have hc0 : c0 = g.1 := by
        have := makeProviderKey_inj (hk0.symm.trans rfl : makeProviderKey c0 = _).symm
        · exact this.symm
      refine ⟨g.1, hk, ?_, ?_⟩
      · intro hex
        obtain ⟨g2, hg2, hg2c⟩ := hex
        exact absurd (by rw [← hg2c]; exact List.mem_map_of_mem Prod.fst hg2) hnd.1
      · intro _
        rw [hval]
        apply hstep g (by simp)
        have hQ := hQ0 ⟨g, by simp, hc0.symm⟩
        rw [hc0] at hQ
        exact hQ

theorem TraceInv.addProvider_ok {C : List Str} {s : ProvidersState} {cid peer : Str}
    {now : Nat} {s1 : ProvidersState} (hC : CidsOK C) (hinv : TraceInv C s)
    (hcid : cid ∈ C) (hp : NoSlash peer) (hp0 : peer ≠ []) (ht : now < 2 ^ 53)
    (h : addProvider s cid peer now = .ok s1) : TraceInv C s1 := by
  have hcidok : CidOK cid := hC.1 cid hcid
  have hrows : RowsOK s.datastore cid := hinv.rowsOK hC hcid
  have hview : loadProviders s.datastore cid =
      .ok ((dsQuery s.datastore (makeProviderKey cid)).map rowView) :=
    loadProviders_eq_of_rows hcidok.1 hinv.nodup hrows
  have hnewload : loadProviders
        (dsPut s.datastore (providerRecordKey cid peer) (varintEncode now)) cid
      = .ok (pmSet ((dsQuery s.datastore (makeProviderKey cid)).map rowView) peer now) :=
    loadProviders_dsPut hcidok.1 hp ht hinv.nodup hrows
  have holdload : ∀ c2 ∈ C, c2 ≠ cid →
      loadProviders (dsPut s.datastore (providerRecordKey cid peer) (varintEncode now)) c2
        = loadProviders s.datastore c2 := by
    intro c2 hc2C hne
    have hpre : (makeProviderKey c2).isPrefixOf (providerRecordKey cid peer) = false :=
      pre_record_false_of_ne (hC.1 c2 hc2C).1 (hC.2 c2 hc2C cid hcid) hne
    unfold loadProviders
    rw [dsQuery_dsPut_not_matching _ _ hpre]
  have hstorefact : ∀ e ∈ dsPut s.datastore (providerRecordKey cid peer) (varintEncode now),
      ∃ c q t, c ∈ C ∧ NoSlash q ∧ q ≠ [] ∧ t < 2 ^ 53 ∧
        e.1 = providerRecordKey c q ∧ e.2 = varintEncode t := by
    intro e he
    rcases mem_dsPut _ _ _ e he with h1 | h1
    · exact ⟨cid, peer, now, hcid, hp, hp0, ht, by rw [h1], by rw [h1]⟩
    · exact hinv.store e h1
  cases hf0 : lruFind s.cache (makeProviderKey cid) with
  | some m0 =>
    rw [addProvider_hit peer now hf0] at h
    injection h with hs1
    subst hs1
    obtain ⟨c0, hc0C, hk0, hl0⟩ := hinv.cache _ (lruFind_mem hf0)
    have hc0cid : c0 = cid := (makeProviderKey_inj (hk0 : _ = makeProviderKey c0)).symm
    rw [hc0cid] at hl0
    have hm0view : m0 = (dsQuery s.datastore (makeProviderKey cid)).map rowView := by
      rw [hl0] at hview
      injection hview
    refine ⟨keys_dsPut_nodup _ _ hinv.nodup, hstorefact, ?_⟩
    intro e he
    rcases mem_lruSet he with h1 | h1
    · refine ⟨cid, hcid, by rw [h1], ?_⟩
      rw [h1]
      show loadProviders _ cid = .ok (pmSet m0 peer now)
      rw [hm0view]
      exact hnewload
    · obtain ⟨c2, hc2C, hk2, hl2⟩ := hinv.cache e (mem_lruTouch h1.1)
      have hne : c2 ≠ cid := by
        intro heq
        exact h1.2 (by rw [hk2, heq])
      exact ⟨c2, hc2C, hk2, by rw [holdload c2 hc2C hne]; exact hl2⟩
  | none =>
    cases hl0 : loadProviders s.datastore cid with
    | error err =>
      rw [addProvider_miss_err peer now hf0 hl0] at h
      exact absurd h (by simp)
    | ok m0 =>
      rw [addProvider_miss_ok peer now hf0 hl0] at h
      injection h with hs1
      subst hs1
      have hm0view : m0 = (dsQuery s.datastore (makeProviderKey cid)).map rowView := by
        rw [hl0] at hview
        injection hview
      refine ⟨keys_dsPut_nodup _ _ hinv.nodup, hstorefact, ?_⟩
      intro e he
      rcases mem_lruSet he with h1 | h1
      · refine ⟨cid, hcid, by rw [h1], ?_⟩
        rw [h1]
        show loadProviders _ cid = .ok (pmSet m0 peer now)
        rw [hm0view]
        exact hnewload
      · rcases mem_lruSet h1.1 with h2 | h2
        · exact absurd (by rw [h2]) h1.2
        · obtain ⟨c2, hc2C, hk2, hl2⟩ := hinv.cache e h2.1
          have hne : c2 ≠ cid := by
            intro heq
            exact h1.2 (by rw [hk2, heq])
          exact ⟨c2, hc2C, hk2, by rw [holdload c2 hc2C hne]; exact hl2⟩

theorem TraceInv.getProviders_ok {C : List Str} {s : ProvidersState} {cid : Str}
    {r : List Str × ProvidersState} (hinv : TraceInv C s) (hcid : cid ∈ C)
    (h : getProviders s cid = .ok r) : TraceInv C r.2 := by
  cases hf0 : lruFind s.cache (makeProviderKey cid) with
  | some m0 =>
    rw [getProviders_hit hf0] at h
    injection h with hr
    subst hr
    refine ⟨hinv.nodup, hinv.store, ?_⟩
    intro e he
    exact hinv.cache e (mem_lruTouch he)
  | none =>
    cases hl0 : loadProviders s.datastore cid with
    | error err =>
      rw [getProviders_miss_err hf0 hl0] at h
      exact absurd h (by simp)
    | ok m0 =>
      rw [getProviders_miss_ok hf0 hl0] at h
      injection h with hr
      subst hr
      refine ⟨hinv.nodup, hinv.store, ?_⟩
      intro e he
      rcases mem_lruSet he with h1 | h1
      · exact ⟨cid, hcid, by rw [h1], by rw [h1]; exact hl0⟩
      · exact hinv.cache e h1.1

theorem TraceInv.scan_iff {C : List Str} {s : ProvidersState} (hC : CidsOK C)
    (hinv : TraceInv C s) (validity now : Nat)
    {c q : Str} {t : Nat} (hcC : c ∈ C) (hq : NoSlash q) (ht : t < 2 ^ 53)
    (hmem : (providerRecordKey c q, varintEncode t) ∈ s.datastore) :
    ((providerRecordKey c q ∈ (sweepScan validity now s.datastore).map (fun x => x.1)) ↔
      now - t > validity) ∧
    (((c, q) ∈ (sweepScan validity now s.datastore).map (fun x => x.2)) ↔
      now - t > validity) := by
  have hc : NoSlash c := (hC.1 c hcC).1
  have hverd : entrySweepVerdict validity now (providerRecordKey c q, varintEncode t) =
      if now - t > validity then some (c, q) else none := by
    simp [entrySweepVerdict, parse_providerRecordKey hc hq, varintDecode_varintEncode ht]
  have hbackward : now - t > validity →
      (providerRecordKey c q, c, q) ∈ sweepScan validity now s.datastore := by
    intro hexp
    apply sweepScan_mem_of_entry (List.mem_filter.mpr ⟨hmem, root_pre_recordKey c q⟩)
    rw [hverd, if_pos hexp]
  have hfromtrip : ∀ x ∈ sweepScan validity now s.datastore,
      (x.1 = providerRecordKey c q ∨ x.2 = (c, q)) → now - t > validity := by
    intro x hx hor
    obtain ⟨e2, he2, hv2, hx1⟩ := mem_sweepScan hx
    have he2ds : e2 ∈ s.datastore := List.mem_of_mem_filter he2
    obtain ⟨c2, q2, t2, hc2C, hq2, _, ht2, hk2, hvv2⟩ := hinv.store e2 he2ds
    have hc2 : NoSlash c2 := (hC.1 c2 hc2C).1
    have hverd2 : entrySweepVerdict validity now e2 =
        if now - t2 > validity then some (c2, q2) else none := by
      simp [entrySweepVerdict, hk2, hvv2, parse_providerRecordKey hc2 hq2,
        varintDecode_varintEncode ht2]
    rw [hverd2] at hv2
    by_cases hexp2 : now - t2 > validity
    case neg =>
      rw [if_neg hexp2] at hv2
      exact absurd hv2 (by simp)
    rw [if_pos hexp2] at hv2
    have hcq : c2 = x.2.1 ∧ q2 = x.2.2 := by
      have := hv2
      injection this with h2
      injection h2 with ha hb
      exact ⟨ha, hb⟩
    have hkeyeq : e2.1 = providerRecordKey c q := by
      rcases hor with ho | ho
      · rw [← hx1]
        exact ho
      · have hx21 : x.2.1 = c := by rw [ho]
        have hx22 : x.2.2 = q := by rw [ho]
        rw [hk2, hcq.1, hcq.2, hx21, hx22]
    have hmem2 : (providerRecordKey c q, e2.2) ∈ s.datastore := by
      rw [← hkeyeq]
      exact he2ds
    have hveq : e2.2 = varintEncode t := assoc_value_unique hinv.nodup hmem2 hmem
    have henc : varintEncode t2 = varintEncode t := by rw [← hvv2, hveq]
    have ht2t : t2 = t := by
      have d1 := varintDecode_varintEncode ht2
      have d2 := varintDecode_varintEncode ht
      rw [henc, d2] at d1
      injection d1 with hd
      exact hd.symm
    rw [← ht2t]
    exact hexp2
  constructor
  · constructor
    · intro hk
      obtain ⟨x, hx, hx1⟩ := List.mem_map.mp hk
      exact hfromtrip x hx (Or.inl hx1)
    · intro hexp
      exact List.mem_map.mpr ⟨_, hbackward hexp, rfl⟩
  · constructor
    · intro hk
      obtain ⟨x, hx, hx2⟩ := List.mem_map.mp hk
      exact hfromtrip x hx (Or.inr hx2)
    · intro hexp
      exact List.mem_map.mpr ⟨_, hbackward hexp, rfl⟩

theorem TraceInv.cleanup_ok {C : List Str} {s : ProvidersState} (hC : CidsOK C)
    (hinv : TraceInv C s) (validity now : Nat) :
    TraceInv C (cleanup validity s now) := by
  have hds2 : (cleanup validity s now).datastore =
      (if (sweepScan validity now s.datastore).isEmpty then s.datastore
       else s.datastore.filter
         (fun e => ! ((sweepScan validity now s.datastore).map (fun x => x.1)).contains e.1)) :=
    rfl
  have hca2 : (cleanup validity s now).cache =
      (groupDeleted (sweepScan validity now s.datastore)).foldl
        (fun x g => reconcileOne x g.1 g.2) s.cache := rfl
  by_cases hemp : (sweepScan validity now s.datastore).isEmpty = true
  · have hSC : sweepScan validity now s.datastore = [] := List.isEmpty_iff.mp hemp
    have h1 : (cleanup validity s now).datastore = s.datastore := by
      rw [hds2, if_pos hemp]
    have h2 : (cleanup validity s now).cache = s.cache := by
      rw [hca2, hSC]
      rfl
    have heq : cleanup validity s now = s := by
      calc cleanup validity s now
          = ⟨(cleanup validity s now).datastore, (cleanup validity s now).cache⟩ := rfl
        _ = ⟨s.datastore, s.cache⟩ := by rw [h1, h2]
        _ = s := rfl
    rw [heq]
    exact hinv
  · obtain ⟨hgnd, hgiff, hgclose⟩ := groupDeleted_good (sweepScan validity now s.datastore)
    have hfilter : (cleanup validity s now).datastore = s.datastore.filter
        (fun e => ! ((sweepScan validity now s.datastore).map (fun x => x.1)).contains e.1) := by
      rw [hds2, if_neg hemp]
    have hsub : ∀ e ∈ (cleanup validity s now).datastore, e ∈ s.datastore := by
      rw [hfilter]
      intro e he
      exact List.mem_of_mem_filter he
    have hnd2 : ((cleanup validity s now).datastore.map Prod.fst).Nodup := by
      rw [hfilter]
      exact keys_filter_nodup _ hinv.nodup
    have hQc : ∀ c : Str, dsQuery (cleanup validity s now).datastore (makeProviderKey c)
        = (dsQuery s.datastore (makeProviderKey c)).filter
            (fun e => ! ((sweepScan validity now s.datastore).map (fun x => x.1)).contains e.1) := by
      intro c
      rw [hfilter, dsQuery_filter]
    have hrowsNew : ∀ c ∈ C, RowsOK (cleanup validity s now).datastore c := by
      intro c hcC e he hm
      exact (hinv.rowsOK hC hcC) e (hsub e he) hm
    have hA : ∀ c ∈ C, (∀ g ∈ groupDeleted (sweepScan validity now s.datastore), g.1 ≠ c) →
        loadProviders (cleanup validity s now).datastore c = loadProviders s.datastore c := by
      intro c hcC hnotdel
      unfold loadProviders
      rw [hQc c, List.filter_eq_self.mpr ?_]
      intro e he
      have hrow := (hinv.rowsOK hC hcC) e (List.mem_of_mem_filter he)
        (by simpa using List.of_mem_filter he)
      obtain ⟨q, t, hq, ht, hk, hv⟩ := hrow
      have hmemds : (providerRecordKey c q, varintEncode t) ∈ s.datastore := by
        rw [← hk, ← hv]
        exact List.mem_of_mem_filter he
      have hiff := hinv.scan_iff hC validity now hcC hq ht hmemds
      cases hcont : (((sweepScan validity now s.datastore).map (fun x => x.1)).contains e.1) with
      | false => simp
      | true =>
        exfalso
        have hm1 : e.1 ∈ (sweepScan validity now s.datastore).map (fun x => x.1) :=
          List.mem_of_elem_eq_true hcont
        rw [hk] at hm1
        have hpair := hiff.2.mpr (hiff.1.mp hm1)
        obtain ⟨g, hg, hgc⟩ := List.mem_map.mp (hgclose c q hpair)
        exact hnotdel g hg hgc
    have hB : ∀ g ∈ groupDeleted (sweepScan validity now s.datastore), ∀ m : PeerMap,
        (g.1 ∈ C ∧ loadProviders s.datastore g.1 = .ok m) →
        (g.1 ∈ C ∧ loadProviders (cleanup validity s now).datastore g.1
          = .ok (g.2.foldl pmDelete m)) := by
      intro g hg m hQm
      obtain ⟨hcC, hm⟩ := hQm
      refine ⟨hcC, ?_⟩
      have hcok : CidOK g.1 := hC.1 g.1 hcC
      have hrows := hinv.rowsOK hC hcC
      have hview := loadProviders_eq_of_rows hcok.1 hinv.nodup hrows
      have hmv : m = (dsQuery s.datastore (makeProviderKey g.1)).map rowView := by
        rw [hm] at hview
        injection hview
      rw [loadProviders_eq_of_rows hcok.1 hnd2 (hrowsNew g.1 hcC), hQc g.1]
      congr 1
      rw [hmv, foldl_pmDelete_eq_filter, List.map_filter]
      congr 1
      apply List.filter_congr
      intro e he
      obtain ⟨q, t, hq, ht, hk, hv⟩ := hrows e (List.mem_of_mem_filter he)
        (by simpa using List.of_mem_filter he)
      have hmemds : (providerRecordKey g.1 q, varintEncode t) ∈ s.datastore := by
        rw [← hk, ← hv]
        exact List.mem_of_mem_filter he
      have hiff := hinv.scan_iff hC validity now hcC hq ht hmemds
      have hqgiff := hgiff g hg q
      have hpeer : ((fun x => ! g.2.contains x.1) ∘ rowView) e
          = ! g.2.contains (rowPeer e) := rfl
      have hpeerq : rowPeer e = q := by
        simp [rowPeer, hk, parse_providerRecordKey hcok.1 hq]
      have hbool : (((sweepScan validity now s.datastore).map (fun x => x.1)).contains e.1
          = true) ↔ (g.2.contains (rowPeer e) = true) := by
        rw [hpeerq]
        constructor
        · intro hc1
          have hm1 := List.mem_of_elem_eq_true hc1
          rw [hk] at hm1
          exact List.elem_eq_true_of_mem (hqgiff.mpr (hiff.2.mpr (hiff.1.mp hm1)))
        · intro hc2
          have hm2 := List.mem_of_elem_eq_true hc2
          have hstaged := hiff.1.mpr (hiff.2.mp (hqgiff.mp hm2))
          rw [← hk] at hstaged
          exact List.elem_eq_true_of_mem hstaged
      show (! ((sweepScan validity now s.datastore).map (fun x => x.1)).contains e.1)
        = ((fun x => ! g.2.contains x.1) ∘ rowView) e
      rw [hpeer]
      exact congrArg (fun b => ! b) (Bool.coe_iff_coe.mp hbool)
    refine ⟨hnd2, ?_, ?_⟩
    · intro e he
      exact hinv.store e (hsub e he)
    · intro e he
      rw [hca2] at he
      have hres := reconcile_fold_general (groupDeleted (sweepScan validity now s.datastore))
        s.cache
        (fun c m => c ∈ C ∧ loadProviders (cleanup validity s now).datastore c = .ok m)
        (fun c m => c ∈ C ∧ loadProviders s.datastore c = .ok m)
        hgnd hB ?_ e he
      · obtain ⟨c, hk, hcC, hl⟩ := hres
        exact ⟨c, hcC, hk, hl⟩
      · intro e2 he2
        obtain ⟨c, hcC, hk, hl⟩ := hinv.cache e2 he2
        refine ⟨c, hk, fun _ => ⟨hcC, hl⟩, fun hall => ⟨hcC, ?_⟩⟩
        rw [hA c hcC hall]
        exact hl

theorem trace_inv_foldl (validity : Nat) :
    ∀ (ops : List ProvOp) (s : ProvidersState) (C : List Str),
      CidsOK C → (∀ op ∈ ops, op.Good) → (∀ op ∈ ops, ∀ c ∈ op.cids, c ∈ C) →
      TraceInv C s → TraceInv C (ops.foldl (applyOp validity) s) := by
  intro ops
  induction ops with
  | nil => intro s C _ _ _ hinv; exact hinv
  | cons op rest ih =>
    intro s C hC hgood hcids hinv
    rw [List.foldl_cons]
    apply ih _ C hC (fun o ho => hgood o (List.mem_cons_of_mem _ ho))
      (fun o ho c hc => hcids o (List.mem_cons_of_mem _ ho) c hc)
    cases op with
    | add cid peer now =>
      obtain ⟨hcok, hp, hp0, ht⟩ := hgood (ProvOp.add cid peer now) (by simp)
      have hcC : cid ∈ C :=
        hcids (ProvOp.add cid peer now) (by simp) cid (by simp [ProvOp.cids])
      show TraceInv C (match addProvider s cid peer now with
        | .ok s1 => s1 | .error _ => s)
      cases hadd : addProvider s cid peer now with
      | ok s1 => exact hinv.addProvider_ok hC hcC hp hp0 ht hadd
      | error e => exact hinv
    | get cid =>
      have hcC : cid ∈ C :=
        hcids (ProvOp.get cid) (by simp) cid (by simp [ProvOp.cids])
      show TraceInv C (match getProviders s cid with
        | .ok r => r.2 | .error _ => s)
      cases hget : getProviders s cid with
      | ok r => exact hinv.getProviders_ok hcC hget
      | error e => exact hinv
    | sweep now =>
      exact hinv.cleanup_ok hC validity now

theorem goodTrace_inv (validity cap : Nat) (ops : List ProvOp) (h : GoodTrace ops) :
    TraceInv (opsCids ops) (runOps validity cap ops) := by
  apply trace_inv_foldl validity ops (initState cap) (opsCids ops) h.2 h.1 ?_
    (TraceInv.initial _ cap)
  intro op hop c hc
  unfold opsCids
  exact List.mem_join.mpr ⟨op.cids, List.mem_map_of_mem ProvOp.cids hop, hc⟩

theorem addProvider_ok_shape {s : ProvidersState} {cid peer : Str} {now : Nat}
    {s1 : ProvidersState} (h : addProvider s cid peer now = .ok s1) :
    ∃ c2 provs,
      s1.datastore = dsPut s.datastore (providerRecordKey cid peer) (varintEncode now) ∧
      s1.cache = lruSet c2 (makeProviderKey cid) (pmSet provs peer now) ∧
      c2.cap = s.cache.cap ∧
      (∀ e ∈ c2.entries, e ∈ s.cache.entries ∨ e = (makeProviderKey cid, provs)) ∧
      (lruFind s.cache (makeProviderKey cid) = some provs ∨
        loadProviders s.datastore cid = .ok provs) := by
  cases hf0 : lruFind s.cache (makeProviderKey cid) with
  | some m0 =>
    rw [addProvider_hit peer now hf0] at h
    injection h with hs1
    subst hs1
    exact ⟨_, m0, rfl, rfl, cap_lruTouch _ _,
      fun e he => Or.inl (mem_lruTouch he), Or.inl rfl⟩
  | none =>
    cases hl0 : loadProviders s.datastore cid with
    | error err =>
      rw [addProvider_miss_err peer now hf0 hl0] at h
      exact absurd h (by simp)
    | ok m0 =>
      rw [addProvider_miss_ok peer now hf0 hl0] at h
      injection h with hs1
      subst hs1
      refine ⟨_, m0, rfl, rfl, cap_lruSet _ _ _, ?_, Or.inr rfl⟩
      intro e he
      rcases mem_lruSet he with h1 | h1
      · exact Or.inr h1
      · exact Or.inl h1.1

theorem getProviders_ok_shape {s : ProvidersState} {cid : Str}
    {r : List Str × ProvidersState} (h : getProviders s cid = .ok r) :
    ∃ m, r.1 = m.map Prod.fst ∧ r.2.datastore = s.datastore ∧
      (r.2.cache = (lruGet s.cache (makeProviderKey cid)).2 ∨
        r.2.cache = lruSet s.cache (makeProviderKey cid) m) ∧
      (lruFind s.cache (makeProviderKey cid) = some m ∨
        loadProviders s.datastore cid = .ok m) := by
  cases hf0 : lruFind s.cache (makeProviderKey cid) with
  | some m0 =>
    rw [getProviders_hit hf0] at h
    injection h with hr
    subst hr
    exact ⟨m0, rfl, rfl, Or.inl rfl, Or.inl rfl⟩
  | none =>
    cases hl0 : loadProviders s.datastore cid with
    | error err =>
      rw [getProviders_miss_err hf0 hl0] at h
      exact absurd h (by simp)
    | ok m0 =>
      rw [getProviders_miss_ok hf0 hl0] at h
      injection h with hr
      subst hr
      exact ⟨m0, rfl, rfl, Or.inr rfl, Or.inr rfl⟩

theorem reconcileOne_cap (ca : LruCache) (c : Str) (ps : List Str) :
    (reconcileOne ca c ps).cap = ca.cap := by
  rw [reconcileOne_eq]
  cases lruFind ca (makeProviderKey c) with
  | none => exact cap_lruTouch _ _
  | some provs =>
    show (if (ps.foldl pmDelete provs).length = 0 then
        lruRemove ((lruGet ca (makeProviderKey c)).2) (makeProviderKey c)
      else lruSet ((lruGet ca (makeProviderKey c)).2) (makeProviderKey c)
        (ps.foldl pmDelete provs)).cap = ca.cap
    by_cases hlen : (ps.foldl pmDelete provs).length = 0
    · rw [if_pos hlen]
      rw [cap_lruRemove, cap_lruTouch]
    · rw [if_neg hlen]
      rw [cap_lruSet, cap_lruTouch]

theorem reconcileOne_len {ca : LruCache} {n : Nat} (c : Str) (ps : List Str)
    (hc : ca.cap = n) (h : ca.entries.length ≤ n) :
    (reconcileOne ca c ps).entries.length ≤ n := by
  rw [reconcileOne_eq]
  cases lruFind ca (makeProviderKey c) with
  | none => exact le_trans (length_lruTouch_le _ _) h
  | some provs =>
    show (if (ps.foldl pmDelete provs).length = 0 then
        lruRemove ((lruGet ca (makeProviderKey c)).2) (makeProviderKey c)
      else lruSet ((lruGet ca (makeProviderKey c)).2) (makeProviderKey c)
        (ps.foldl pmDelete provs)).entries.length ≤ n
    by_cases hlen : (ps.foldl pmDelete provs).length = 0
    · rw [if_pos hlen]
      exact le_trans (length_lruRemove_le _ _) (le_trans (length_lruTouch_le _ _) h)
    · rw [if_neg hlen]
      have := length_lruSet_le_cap ((lruGet ca (makeProviderKey c)).2) (makeProviderKey c)
        (ps.foldl pmDelete provs)
      rw [cap_lruTouch, hc] at this
      exact this

theorem cacheBound_reconcile_fold {cap : Nat} :
    ∀ (l : List (Str × List Str)) (ca : LruCache), ca.cap = cap →
      ca.entries.length ≤ cap →
      (l.foldl (fun c g => reconcileOne c g.1 g.2) ca).cap = cap ∧
      (l.foldl (fun c g => reconcileOne c g.1 g.2) ca).entries.length ≤ cap := by
  intro l
  induction l with
  | nil => intro ca hc hl; exact ⟨hc, hl⟩
  | cons g rest ih =>
    intro ca hc hl
    rw [List.foldl_cons]
    exact ih _ (by rw [reconcileOne_cap]; exact hc) (reconcileOne_len _ _ hc hl)

theorem cacheBound_applyOp (validity cap : Nat) (s : ProvidersState) (op : ProvOp)
    (hc : s.cache.cap = cap) (hl : s.cache.entries.length ≤ cap) :
    (applyOp validity s op).cache.cap = cap ∧
      (applyOp validity s op).cache.entries.length ≤ cap := by
  cases op with
  | add cid peer now =>
    show (match addProvider s cid peer now with
        | .ok s1 => s1 | .error _ => s).cache.cap = cap ∧
      (match addProvider s cid peer now with
        | .ok s1 => s1 | .error _ => s).cache.entries.length ≤ cap
    cases hadd : addProvider s cid peer now with
    | error e => exact ⟨hc, hl⟩
    | ok s1 =>
      obtain ⟨c2, provs, _, hcache, hcap, _, _⟩ := addProvider_ok_shape hadd
      show s1.cache.cap = cap ∧ s1.cache.entries.length ≤ cap
      rw [hcache]
      constructor
      · rw [cap_lruSet, hcap, hc]
      · have := length_lruSet_le_cap c2 (makeProviderKey cid) (pmSet provs peer now)
        rw [hcap, hc] at this
        exact this
  | get cid =>
    show (match getProviders s cid with
        | .ok r => r.2 | .error _ => s).cache.cap = cap ∧
      (match getProviders s cid with
        | .ok r => r.2 | .error _ => s).cache.entries.length ≤ cap
    cases hget : getProviders s cid with
    | error e => exact ⟨hc, hl⟩
    | ok r =>
      obtain ⟨m, _, _, hcache, _⟩ := getProviders_ok_shape hget
      show r.2.cache.cap = cap ∧ r.2.cache.entries.length ≤ cap
      rcases hcache with hca | hca
      · rw [hca]
        exact ⟨by rw [cap_lruTouch, hc],
          le_trans (length_lruTouch_le _ _) hl⟩
      · rw [hca]
        refine ⟨by rw [cap_lruSet, hc], ?_⟩
        have := length_lruSet_le_cap s.cache (makeProviderKey cid) m
        rw [hc] at this
        exact this
  | sweep now =>
    exact cacheBound_reconcile_fold _ s.cache hc hl

theorem cacheBound_foldl (validity cap : Nat) :
    ∀ (ops : List ProvOp) (s : ProvidersState), s.cache.cap = cap →
      s.cache.entries.length ≤ cap →
      (ops.foldl (applyOp validity) s).cache.cap = cap ∧
      (ops.foldl (applyOp validity) s).cache.entries.length ≤ cap := by
  intro ops
  induction ops with
  | nil => intro s hc hl; exact ⟨hc, hl⟩
  | cons op rest ih =>
    intro s hc hl
    rw [List.foldl_cons]
    obtain ⟨hc1, hl1⟩ := cacheBound_applyOp validity cap s op hc hl
    exact ih _ hc1 hl1

/-- C6.  Cache bound: after any sequence of operations on a `Providers`
constructed with LRU capacity `cap`, the number of distinct CIDs resident in
the in-memory cache (distinct cache keys, each of the form
`makeProviderKey cid`) is at most `cap`; the capacity itself never changes
from its construction-time value. -/
theorem cache_bound_of_trace (validity cap : Nat) (ops : List ProvOp) :
    ((runOps validity cap ops).cache.entries.map Prod.fst).dedup.length ≤ cap ∧
      (runOps validity cap ops).cache.cap = cap := by
  obtain ⟨hc, hl⟩ := cacheBound_foldl validity cap ops (initState cap) rfl
    (by simp [initState, emptyLru])
  refine ⟨?_, hc⟩
  calc ((runOps validity cap ops).cache.entries.map Prod.fst).dedup.length
      ≤ ((runOps validity cap ops).cache.entries.map Prod.fst).length :=
        (List.dedup_sublist _).length_le
    _ = (runOps validity cap ops).cache.entries.length := List.length_map _ _
    _ ≤ cap := hl

theorem cacheMapsWF_reconcileOne {ca : LruCache} (c0 : Str) (ps0 : List Str)
    (h : CacheMapsWF ca) : CacheMapsWF (reconcileOne ca c0 ps0) := by
  intro e he
  rcases mem_reconcileOne he with ⟨hmem, _⟩ | ⟨_, m0, hfind, he2⟩
  · exact h e hmem
  · rw [he2, foldl_pmDelete_eq_filter]
    exact nodupKeys_filter _ (h _ (lruFind_mem hfind))

theorem cacheMapsWF_reconcile_fold :
    ∀ (l : List (Str × List Str)) (ca : LruCache), CacheMapsWF ca →
      CacheMapsWF (l.foldl (fun c g => reconcileOne c g.1 g.2) ca) := by
  intro l
  induction l with
  | nil => intro ca h; exact h
  | cons g rest ih =>
    intro ca h
    rw [List.foldl_cons]
    exact ih _ (cacheMapsWF_reconcileOne g.1 g.2 h)

theorem cacheMapsWF_addProvider {s s1 : ProvidersState} {cid peer : Str} {now : Nat}
    (hwf : CacheMapsWF s.cache) (h : addProvider s cid peer now = .ok s1) :
    CacheMapsWF s1.cache := by
  obtain ⟨c2, provs, _, hcache, _, hsub, hsrc⟩ := addProvider_ok_shape h
  have hprovs : (provs.map Prod.fst).Nodup := by
    rcases hsrc with hf | hl
    · exact hwf _ (lruFind_mem hf)
    · exact keys_nodup_loadEntriesAcc_ok _ [] provs (by simp) hl
  rw [hcache]
  intro e he
  rcases mem_lruSet he with he1 | he1
  · rw [he1]
    exact keys_pmSet_nodup peer now hprovs
  · rcases hsub e he1.1 with h2 | h2
    · exact hwf e h2
    · rw [h2]
      exact hprovs

theorem cacheMapsWF_getProviders {s : ProvidersState} {cid : Str}
    {r : List Str × ProvidersState} (hwf : CacheMapsWF s.cache)
    (h : getProviders s cid = .ok r) : CacheMapsWF r.2.cache := by
  obtain ⟨m, _, _, hcache, hsrc⟩ := getProviders_ok_shape h
  have hm : (m.map Prod.fst).Nodup := by
    rcases hsrc with hf | hl
    · exact hwf _ (lruFind_mem hf)
    · exact keys_nodup_loadEntriesAcc_ok _ [] m (by simp) hl
  rcases hcache with hca | hca
  · rw [hca]
    intro e he
    exact hwf e (mem_lruTouch he)
  · rw [hca]
    intro e he
    rcases mem_lruSet he with he1 | he1
    · rw [he1]
      exact hm
    · exact hwf e he1.1

theorem cacheMapsWF_applyOp (validity : Nat) (s : ProvidersState) (op : ProvOp)
    (h : CacheMapsWF s.cache) : CacheMapsWF (applyOp validity s op).cache := by
  cases op with
  | add cid peer now =>
    show CacheMapsWF (match addProvider s cid peer now with
      | .ok s1 => s1 | .error _ => s).cache
    cases hadd : addProvider s cid peer now with
    | ok s1 => exact cacheMapsWF_addProvider h hadd
    | error e => exact h
  | get cid =>
    show CacheMapsWF (match getProviders s cid with
      | .ok r => r.2 | .error _ => s).cache
    cases hget : getProviders s cid with
    | ok r => exact cacheMapsWF_getProviders h hget
    | error e => exact h
  | sweep now =>
    exact cacheMapsWF_reconcile_fold _ s.cache h

theorem cacheMapsWF_foldl (validity : Nat) :
    ∀ (ops : List ProvOp) (s : ProvidersState), CacheMapsWF s.cache →
      CacheMapsWF ((ops.foldl (applyOp validity) s)).cache := by
  intro ops
  induction ops with
  | nil => intro s h; exact h
  | cons op rest ih =>
    intro s h
    rw [List.foldl_cons]
    exact ih _ (cacheMapsWF_applyOp validity s op h)

/-- C10.  Duplicate-free result: in every state reachable by a sequence of
operations from a fresh `Providers`, a successful `getProviders(cid)` returns
a list containing each peer id at most once, because the providers are
materialised as a map keyed by the peer's textual form before the list is
produced. -/
theorem get_providers_nodup (validity cap : Nat) (ops : List ProvOp) (cid : Str)
    (l : List Str) (h : providersListOf (runOps validity cap ops) cid = some l) :
    l.Nodup := by
  have hwf : CacheMapsWF (runOps validity cap ops).cache :=
    cacheMapsWF_foldl validity ops (initState cap)
      (fun e he => absurd he (by simp [initState, emptyLru]))
  unfold providersListOf at h
  cases hget : getProviders (runOps validity cap ops) cid with
  | error e =>
    rw [hget] at h
    exact absurd h (by simp)
  | ok r =>
    rw [hget] at h
    have hr : r.1 = l := by simpa using h
    obtain ⟨m, hm1, _, _, hsrc⟩ := getProviders_ok_shape hget
    have hmn : (m.map Prod.fst).Nodup := by
      rcases hsrc with hf | hl
      · exact hwf _ (lruFind_mem hf)
      · exact keys_nodup_loadEntriesAcc_ok _ [] m (by simp) hl
    rw [← hr, hm1]
    exact hmn

theorem get_providers_nodup_witness :
    providersListOf (runOps 100 8 [ProvOp.add ['c'] ['p'] 0, ProvOp.add ['c'] ['q'] 1])
        ['c'] = some [['p'], ['q']] ∧ ([['p'], ['q']] : List Str).Nodup :=
  ⟨by decide, get_providers_nodup 100 8
    [ProvOp.add ['c'] ['p'] 0, ProvOp.add ['c'] ['q'] 1] ['c'] [['p'], ['q']]
    (by decide)⟩

/-- C1 (amended).  Cache coherence after completed operations: after any good
trace of serialized units each of which ran to completion, every cache entry
holds exactly the peer map that `loadProviders` reads back from the backend
records for that CID.  The original claim's extension to a mutating operation
that fails with a `BackendFailure` partway through is refuted separately: a
failed `store.put` in `addProvider` leaves a cache entry that strictly
contains the backend rows. -/
theorem cache_coherence_of_trace (validity cap : Nat) (ops : List ProvOp)
    (cid : Str) (m : PeerMap) (hops : GoodTrace ops)
    (hfind : lruFind (runOps validity cap ops).cache (makeProviderKey cid) = some m) :
    loadProviders (runOps validity cap ops).datastore cid = .ok m := by
  have hinv := goodTrace_inv validity cap ops hops
  obtain ⟨c, hcC, hk, hload⟩ := hinv.cache _ (lruFind_mem hfind)
  have hcc : cid = c := makeProviderKey_inj hk
  rw [hcc]
  exact hload

theorem cache_coherence_of_trace_witness :
    GoodTrace [ProvOp.add ['c'] ['p'] 0, ProvOp.add ['d'] ['q'] 1, ProvOp.sweep 2] ∧
    lruFind (runOps 100 8
        [ProvOp.add ['c'] ['p'] 0, ProvOp.add ['d'] ['q'] 1, ProvOp.sweep 2]).cache
      (makeProviderKey ['c']) = some [(['p'], 0)] ∧
    loadProviders (runOps 100 8
        [ProvOp.add ['c'] ['p'] 0, ProvOp.add ['d'] ['q'] 1, ProvOp.sweep 2]).datastore
      ['c'] = .ok [(['p'], 0)] :=
  ⟨by decide, by decide,
    cache_coherence_of_trace 100 8
      [ProvOp.add ['c'] ['p'] 0, ProvOp.add ['d'] ['q'] 1, ProvOp.sweep 2]
      ['c'] [(['p'], 0)] (by decide) (by decide)⟩
